import Mathlib

/-!
Verification of the TextCNN training pipeline (mlmodels/model_tch/textcnn.py).

The Python module is shallowly embedded here:

* machine floats are modelled by exact rationals;
* the third-party per-example cross-entropy value (the inside of
  F.cross_entropy) is an abstract function argument `ex`; the code's own
  reduction of per-example values to a batch mean is embedded explicitly;
* the Adam optimizer step (optimizer.step on gradients) is an abstract
  function argument `optStep`, threaded through the training loop exactly as
  the code threads the in-place parameter updates;
* dropout randomness is modelled by an explicit stream of multiplicative
  masks, consumed only when the module is in training mode;
* file-system effects (torch.save) are modelled as an event log of
  (path, snapshot) pairs;
* Python functions that can raise are embedded with Except.
-/

namespace TextCnn

/-! ## Devices and tensors (torch glue used by the module) -/

/-- The two torch devices the module mentions (torch.device of cuda or cpu). -/
inductive TorchDevice
  | cpu
  | cuda
deriving DecidableEq

/-- A value together with its device placement, modelling a torch tensor at the
granularity this module needs. -/
structure Placed (α : Type) where
  val : α
  dev : TorchDevice
deriving DecidableEq

/-- Model of Tensor.to(device): with device=None the call leaves the tensor
unchanged; with a concrete device it re-places the value. -/
def tensorTo {α : Type} (d : Option TorchDevice) (x : Placed α) : Placed α :=
  match d with
  | none => x
  | some dv => { val := x.val, dev := dv }

/-- Embedding of _get_device (textcnn.py lines 75-77): the body computes a
device from cuda availability but has no return statement, so the Python
function returns None. -/
def _get_device (cudaAvailable : Bool) : Option TorchDevice :=
  let _device := some (if cudaAvailable then TorchDevice.cuda else TorchDevice.cpu)
  none

/-! ## The TextCNN model (class TextCNN, lines 196-228) -/

/-- One output channel of an nn.Conv2d(1, dim_channel, (w, emb_dim)) layer:
a w x emb_dim kernel and its bias. -/
structure ConvChannel where
  kernel : List (List ℚ)
  bias : ℚ
deriving DecidableEq

/-- Trainable parameters of TextCNN: the embedding table, the convolution
channels (one list of channels per kernel window size), and the final linear
layer (weight rows and bias). -/
structure TCParams where
  embed : List (List ℚ)
  convs : List (List ConvChannel)
  fcW : List (List ℚ)
  fcB : List ℚ
deriving DecidableEq

/-- An nn.Module's mutable state as far as this file needs it: its parameters
and its training-mode flag (toggled in place by m.train() and m.eval()). -/
structure ModelState where
  params : TCParams
  training : Bool
deriving DecidableEq

/-- Dot product of two rational vectors. -/
def dotQ (xs ys : List ℚ) : ℚ := (List.zipWith (· * ·) xs ys).sum

/-- Row lookup in the embedding table (nn.Embedding forward for one index). -/
def lookupRow (table : List (List ℚ)) (i : ℕ) : List ℚ := table.getD i []

/-- One convolution channel slid over the embedded sequence: at every window
position, the sum over the w x emb_dim window of kernel times embedding, plus
the bias.  (Conv2d computes cross-correlation; there is no nonlinearity in
this model's forward.) -/
def convMap (ch : ConvChannel) (emb : List (List ℚ)) : List ℚ :=
  (List.range (emb.length + 1 - ch.kernel.length)).map (fun t =>
    (List.zipWith dotQ ch.kernel ((emb.drop t).take ch.kernel.length)).sum + ch.bias)

/-- F.max_pool1d over the whole sequence dimension: the maximum of the list. -/
def maxPool (l : List ℚ) : ℚ := l.foldl max (l.headD 0)

/-- The nn.Dropout layer: in training mode it multiplies the feature vector
elementwise by the sampled mask (inverted-dropout scaling included in the
mask); in eval mode it is the identity. -/
def dropoutApply (training : Bool) (mask : List ℚ) (v : List ℚ) : List ℚ :=
  if training then List.zipWith (· * ·) mask v else v

/-- Embedding of TextCNN.forward (lines 214-228) for a single example:
embed the token indices, apply every conv channel of every window size,
max-pool each feature map to a scalar, concatenate (channel order follows the
ModuleList order), apply dropout, then the final linear layer. -/
def forward (p : TCParams) (training : Bool) (mask : List ℚ) (tokens : List ℕ) : List ℚ :=
  let emb := tokens.map (lookupRow p.embed)
  let pooled := (p.convs.map (fun chans => chans.map (fun ch => maxPool (convMap ch emb)))).flatten
  let dropped := dropoutApply training mask pooled
  List.zipWith (fun row b => dotQ row dropped + b) p.fcW p.fcB

/-! ## Batches and the per-batch computation shared by _train and _valid -/

/-- A torchtext batch: batch.text is the sequence-major token-index matrix,
batch.label the integer labels; both are tensors with a device placement. -/
structure Batch where
  text : Placed (List (List ℕ))
  label : Placed (List ℤ)
deriving DecidableEq

/-- The abstract per-example cross-entropy: from one logit vector and the
(already shifted) integer target, the scalar loss value.  F.cross_entropy
is this, averaged over the batch. -/
abbrev ExLoss := List ℚ → ℤ → ℚ

/-- F.cross_entropy(logit, target) with the default mean reduction: the mean
over the batch of the per-example losses. -/
def crossEntropyMean (ex : ExLoss) (logits : List (List ℚ)) (targets : List ℤ) : ℚ :=
  (List.zipWith ex logits targets).sum / (logits.length : ℚ)

/-- torch.max(logit, 1)[1] for one row: the index of the first maximal entry. -/
def argmaxIdx : List ℚ → ℕ
  | [] => 0
  | [_] => 0
  | x :: y :: rest =>
    let j := argmaxIdx (y :: rest)
    if x < (y :: rest).getD j 0 then j + 1 else 0

/-- (result.view(target.size()).data == target.data).sum(): how many predicted
class indices equal the target labels. -/
def countCorrect (logits : List (List ℚ)) (targets : List ℤ) : ℕ :=
  (List.zipWith (fun l t => if (argmaxIdx l : ℤ) = t then 1 else 0) logits targets).sum

/-- What one loop iteration of _train/_valid contributes: the per-example
losses of the batch (inside F.cross_entropy), the batch-mean loss added to the
running loss by loss.item(), the number of correct predictions, and the batch
size. -/
structure StepRec where
  perExampleLoss : List ℚ
  batchLoss : ℚ
  correct : ℕ
  bsize : ℕ
deriving DecidableEq

/-- The shared body of the _train/_valid batch loops (lines 30-44 and 55-67):
transpose batch.text to batch-major, shift the labels down by one in place
(target.data.sub_(1)), move both to the device, run the model forward on each
example, and record the cross-entropy and correct-prediction count. -/
def batchEval (ex : ExLoss) (p : TCParams) (training : Bool) (mask : List ℚ)
    (device : Option TorchDevice) (b : Batch) : StepRec :=
  let text : Placed (List (List ℕ)) := { val := b.text.val.transpose, dev := b.text.dev }
  let target : Placed (List ℤ) := { val := b.label.val.map (fun v => v - 1), dev := b.label.dev }
  let text := tensorTo device text
  let target := tensorTo device target
  let logit := text.val.map (forward p training mask)
  { perExampleLoss := List.zipWith ex logit target.val
    batchLoss := crossEntropyMean ex logit target.val
    correct := countCorrect logit target.val
    bsize := logit.length }

/-- len(itr.dataset): the torchtext Iterator (repeat=False) yields every
example of its dataset exactly once across its batches, so the dataset size is
the total number of labels in the batch list. -/
def datasetSize (itr : List Batch) : ℕ := (itr.map (fun b => b.label.val.length)).sum

variable {Opt : Type}

/-! ## _train (lines 27-50) and _valid (lines 52-73) -/

/-- The batch loop of _train, recorded per iteration: at each batch the model
forward runs at the current parameters (training mode, consuming the next
dropout mask), then optimizer.step updates parameters and optimizer state in
place (abstract optStep, fed the same batch and mask the gradients came
from).  Returns final parameters, final optimizer state, and the per-batch
records whose fields the loop accumulates. -/
def trainSteps (ex : ExLoss) (optStep : Opt → TCParams → Batch → List ℚ → Opt × TCParams)
    (device : Option TorchDevice) (masks : ℕ → List ℚ) :
    ℕ → TCParams → Opt → List Batch → TCParams × Opt × List StepRec
  | _, p, o, [] => (p, o, [])
  | i, p, o, b :: bs =>
    let r := batchEval ex p true (masks i) device b
    let po := optStep o p b (masks i)
    let rest := trainSteps ex optStep device masks (i + 1) po.2 po.1 bs
    (rest.1, rest.2.1, r :: rest.2.2)

/-- Embedding of _train: m.train(), run the batch loop accumulating
train_loss += loss.item() and corrects += matches, then divide the
accumulated loss by the dataset size and report accuracy as
100 * corrects / size.  Returns the updated module state, optimizer state,
and the reported (train_loss, accuracy). -/
def _train (ex : ExLoss) (optStep : Opt → TCParams → Batch → List ℚ → Opt × TCParams)
    (m : ModelState) (device : Option TorchDevice) (train_itr : List Batch)
    (o : Opt) (masks : ℕ → List ℚ) : ModelState × Opt × ℚ × ℚ :=
  let res := trainSteps ex optStep device masks 0 m.params o train_itr
  let size := datasetSize train_itr
  let train_loss := ((res.2.2.map (fun r => r.batchLoss)).sum) / (size : ℚ)
  let accuracy := 100 * ((res.2.2.map (fun r => (r.correct : ℚ))).sum) / (size : ℚ)
  ({ params := res.1, training := true }, res.2.1, train_loss, accuracy)

/-- The batch loop of _valid: the same batch computation with the module in
eval mode and no optimizer step. -/
def validSteps (ex : ExLoss) (p : TCParams) (device : Option TorchDevice)
    (masks : ℕ → List ℚ) : ℕ → List Batch → List StepRec
  | _, [] => []
  | i, b :: bs => batchEval ex p false (masks i) device b :: validSteps ex p device masks (i + 1) bs

/-- Embedding of _valid: m.eval() (flips the training flag in place, disabling
dropout), run the batch loop accumulating test_loss and corrects, divide by
the dataset size.  Returns the module state after m.eval() together with the
reported (test_loss, accuracy). -/
def _valid (ex : ExLoss) (m : ModelState) (device : Option TorchDevice)
    (test_itr : List Batch) (masks : ℕ → List ℚ) : ModelState × ℚ × ℚ :=
  let m2 : ModelState := { m with training := false }
  let recs := validSteps ex m2.params device masks 0 test_itr
  let size := datasetSize test_itr
  (m2, ((recs.map (fun r => r.batchLoss)).sum) / (size : ℚ),
    100 * ((recs.map (fun r => (r.correct : ℚ))).sum) / (size : ℚ))

/-- Embedding of metric (lines 252-254): fetch the device (always None) and
delegate to _valid; the extra *args/**kwargs are ignored by the source. -/
def metric (cudaAvailable : Bool) (ex : ExLoss) (model : ModelState)
    (test_iter : List Batch) (masks : ℕ → List ℚ) : ModelState × ℚ × ℚ :=
  let device := _get_device cudaAvailable
  _valid ex model device test_iter masks

/-! ## fit (lines 256-285) -/

/-- The compute_pars options fit reads. -/
structure ComputePars where
  learning_rate : ℚ
  epochs : ℕ

/-- The out_pars option fit reads. -/
structure OutPars where
  checkpointdir : String

/-- os.path.join for the one join the module performs. -/
def osPathJoin (a b : String) : String := a ++ "/" ++ b

/-- What one epoch of fit produces: the four reported metrics and the
checkpoint write (torch.save target path and parameter snapshot) if the epoch
performed one. -/
structure EpochRec where
  tr_loss : ℚ
  tr_acc : ℚ
  ts_loss : ℚ
  ts_acc : ℚ
  saved : Option (String × TCParams)
deriving DecidableEq

instance : Inhabited EpochRec := ⟨⟨0, 0, 0, 0, none⟩⟩

/-- The epoch loop of fit: run _train then _valid, and when the validation
accuracy strictly exceeds the running best (initially -1), save a parameter
snapshot to the fixed checkpoint path and raise the running best.  Arguments:
epochs still to run, current epoch number, module state, optimizer state,
running best validation accuracy. -/
def fitLoop (ex : ExLoss) (optStep : Opt → TCParams → Batch → List ℚ → Opt × TCParams)
    (device : Option TorchDevice) (train_iter valid_iter : List Batch)
    (tmasks vmasks : ℕ → ℕ → List ℚ) (out_pars : OutPars) :
    ℕ → ℕ → ModelState → Opt → ℚ → ModelState × Opt × List EpochRec
  | 0, _, m, o, _ => (m, o, [])
  | k + 1, e, m, o, best =>
    let tr := _train ex optStep m device train_iter o (tmasks e)
    let ts := _valid ex tr.1 device valid_iter (vmasks e)
    let saved := if best < ts.2.2 then
        some (osPathJoin out_pars.checkpointdir "best_accuracy", ts.1.params) else none
    let best2 := if best < ts.2.2 then ts.2.2 else best
    let rest := fitLoop ex optStep device train_iter valid_iter tmasks vmasks out_pars
        k (e + 1) ts.1 tr.2.1 best2
    (rest.1, rest.2.1,
      { tr_loss := tr.2.2.1, tr_acc := tr.2.2.2, ts_loss := ts.2.1, ts_acc := ts.2.2,
        saved := saved } :: rest.2.2)

/-- Embedding of fit: read learning rate and epoch count, fetch the device,
build the Adam optimizer (abstract optInit from the learning rate), and run
the epoch loop with best_test_acc initialized to -1. -/
def fit (cudaAvailable : Bool) (ex : ExLoss)
    (optStep : Opt → TCParams → Batch → List ℚ → Opt × TCParams) (optInit : ℚ → Opt)
    (model : ModelState) (train_iter valid_iter : List Batch)
    (tmasks vmasks : ℕ → ℕ → List ℚ)
    (compute_pars : ComputePars) (out_pars : OutPars) : ModelState × Opt × List EpochRec :=
  let lr := compute_pars.learning_rate
  let epochs := compute_pars.epochs
  let device := _get_device cudaAvailable
  fitLoop ex optStep device train_iter valid_iter tmasks vmasks out_pars
    epochs 1 model (optInit lr) (-1)

/-! ## get_params (lines 236-249) -/

/-- A JSON object inside the config, as an association list. -/
abbrev ConfigGroup := List (String × String)

/-- One profile of the configuration document: the four option groups, each
possibly absent. -/
structure ProfileDoc where
  model_pars : Option ConfigGroup
  data_pars : Option ConfigGroup
  compute_pars : Option ConfigGroup
  out_pars : Option ConfigGroup
deriving DecidableEq

/-- The loaded configuration document with its two named profiles, either of
which may be absent (dict.get returning None). -/
structure ConfigDoc where
  testCfg : Option ProfileDoc
  prodCfg : Option ProfileDoc
deriving DecidableEq

/-- The Python exceptions this embedding distinguishes. -/
inductive PyErr
  | attributeError
deriving DecidableEq

/-- Embedding of get_params after the JSON document is loaded: select the
test or prod profile with dict.get (None when absent); when it is None, the
subsequent config.get on None raises AttributeError; otherwise each of the
four groups defaults to the empty dict when absent. -/
def get_params (config : ConfigDoc) (test : Bool) :
    Except PyErr (ConfigGroup × ConfigGroup × ConfigGroup × ConfigGroup) :=
  let cfg := if test then config.testCfg else config.prodCfg
  match cfg with
  | none => Except.error PyErr.attributeError
  | some c =>
    Except.ok (c.model_pars.getD [], c.data_pars.getD [], c.compute_pars.getD [],
      c.out_pars.getD [])

/-! ## split_train_valid (lines 103-110) -/

/-- Floor of a rational, computed as floor division of numerator by
denominator (the denominator is positive). -/
def ratFloor (q : ℚ) : ℤ := Int.fdiv q.num (q.den : ℤ)

/-- Python round: round-half-to-even on rationals. -/
def pythonRound (q : ℚ) : ℤ :=
  let f := ratFloor q
  let r : ℚ := q - (f : ℚ)
  if r < 1 / 2 then f
  else if 1 / 2 < r then f + 1
  else if f % 2 = 0 then f else f + 1

/-- pandas DataFrame.sample(frac=f) draws round(f * n) distinct row positions
without replacement. -/
def pandasSampleSize (f : ℚ) (n : ℕ) : ℤ := pythonRound (f * (n : ℚ))

/-- The RandomState draw made by df.sample inside split_train_valid: the list
of distinct row positions of the sampled rows, in sampled order.  The body
hardcodes frac=0.7, so a valid draw has round(0.7 * n) elements. -/
structure DrawOk (n : ℕ) (draw : List ℕ) : Prop where
  nodup : draw.Nodup
  mem : ∀ i ∈ draw, i < n
  len : (draw.length : ℤ) = pandasSampleSize (7 / 10) n

/-- Embedding of split_train_valid: read the rows, sample (the frac parameter
is ignored by the body; df.sample is called with the literal frac=0.7, its
randomness is the draw argument), and write the sampled rows as the train
split and the remaining rows (original order) as the valid split. -/
def split_train_valid {α : Type} (frac : ℚ) (rows : List α) (draw : List ℕ) :
    List α × List α :=
  let _ := frac
  let tr := draw.filterMap (fun i => rows[i]?)
  let tst := (rows.enum.filter (fun p => decide (p.1 ∉ draw))).map (fun p => p.2)
  (tr, tst)

/-! ## Helper lemmas -/

theorem tensorTo_val {α : Type} (d : Option TorchDevice) (x : Placed α) :
    (tensorTo d x).val = x.val := by
  cases d <;> rfl

theorem forward_eval_mask (p : TCParams) (mask1 mask2 : List ℚ) :
    forward p false mask1 = forward p false mask2 := by
  funext tokens
  simp [forward, dropoutApply]

theorem batchEval_eval_mask (ex : ExLoss) (p : TCParams) (mask1 mask2 : List ℚ)
    (device : Option TorchDevice) (b : Batch) :
    batchEval ex p false mask1 device b = batchEval ex p false mask2 device b := by
  simp only [batchEval]
  rw [forward_eval_mask p mask1 mask2]

theorem validSteps_mask_indep (ex : ExLoss) (p : TCParams) (device : Option TorchDevice)
    (masks1 masks2 : ℕ → List ℚ) :
    ∀ (i : ℕ) (bs : List Batch),
      validSteps ex p device masks1 i bs = validSteps ex p device masks2 i bs := by
  intro i bs
  induction bs generalizing i with
  | nil => rfl
  | cons b bs ih =>
    simp only [validSteps]
    rw [ih (i + 1), batchEval_eval_mask ex p (masks1 i) (masks2 i) device b]

/-! ## C6, C7, C9, C10, C3 -/

/-- C6: for fixed parameters and a fixed sequence of evaluation batches, the
evaluation loop _valid (and hence metric) is a deterministic function of
parameters and data: its result does not depend on the dropout-mask
randomness, the only run-to-run varying input, because eval mode disables
dropout. -/
theorem valid_metric_deterministic (ex : ExLoss) (m : ModelState)
    (device : Option TorchDevice) (batches : List Batch) (masks1 masks2 : ℕ → List ℚ)
    (cuda : Bool) :
    _valid ex m device batches masks1 = _valid ex m device batches masks2 ∧
    metric cuda ex m batches masks1 = metric cuda ex m batches masks2 := by
  constructor
  · simp only [_valid]
    rw [validSteps_mask_indep ex m.params device masks1 masks2 0 batches]
  · simp only [metric, _valid]
    rw [validSteps_mask_indep ex m.params (_get_device cuda) masks1 masks2 0 batches]

/-- C7: running the evaluation loop _valid leaves all model parameters
unchanged; the only thing m.eval() touches in the module state is the
training flag. -/
theorem valid_preserves_params (ex : ExLoss) (m : ModelState) (device : Option TorchDevice)
    (batches : List Batch) (masks : ℕ → List ℚ) :
    (_valid ex m device batches masks).1.params = m.params ∧
    (_valid ex m device batches masks).1 = { params := m.params, training := false } := by
  exact ⟨rfl, rfl⟩

/-- C9: _get_device always returns None (its computed device assignment is
never returned), so tensors are moved with device=None (a no-op), and the
results of fit and metric never depend on GPU availability. -/
theorem get_device_none_everywhere {α : Type} {Opt : Type} (cuda cuda2 : Bool)
    (x : Placed α) (ex : ExLoss)
    (optStep : Opt → TCParams → Batch → List ℚ → Opt × TCParams) (optInit : ℚ → Opt)
    (model : ModelState) (train_iter valid_iter : List Batch)
    (tmasks vmasks : ℕ → ℕ → List ℚ) (masks : ℕ → List ℚ)
    (compute_pars : ComputePars) (out_pars : OutPars) :
    _get_device cuda = none ∧
    tensorTo (_get_device cuda) x = x ∧
    fit cuda ex optStep optInit model train_iter valid_iter tmasks vmasks
        compute_pars out_pars =
      fit cuda2 ex optStep optInit model train_iter valid_iter tmasks vmasks
        compute_pars out_pars ∧
    metric cuda ex model valid_iter masks = metric cuda2 ex model valid_iter masks := by
  exact ⟨rfl, rfl, rfl, rfl⟩

/-- C10: get_params raises (AttributeError from None.get) when the selected
profile key (test when test=True, else prod) is absent from the document, and
when the profile is present each absent option group defaults to the empty
dict. -/
theorem get_params_profile_and_defaults (config : ConfigDoc) (test : Bool) :
    ((if test then config.testCfg else config.prodCfg) = none →
      get_params config test = Except.error PyErr.attributeError) ∧
    (∀ c, (if test then config.testCfg else config.prodCfg) = some c →
      get_params config test =
        Except.ok (c.model_pars.getD [], c.data_pars.getD [], c.compute_pars.getD [],
          c.out_pars.getD [])) := by
  constructor
  · intro h
    simp [get_params, h]
  · intro c h
    simp [get_params, h]

/-- Witness for C10 at a concrete document: with the test profile absent the
call errors; with it present but all groups absent every group defaults to
the empty dict. -/
theorem get_params_profile_and_defaults_witness :
    get_params { testCfg := none, prodCfg := some ⟨none, none, none, none⟩ } true =
      Except.error PyErr.attributeError ∧
    get_params { testCfg := some ⟨none, some [("lang", "en")], none, none⟩, prodCfg := none }
        true =
      Except.ok ([], [("lang", "en")], [], []) := by
  constructor
  · exact (get_params_profile_and_defaults
      { testCfg := none, prodCfg := some ⟨none, none, none, none⟩ } true).1 rfl
  · exact (get_params_profile_and_defaults
      { testCfg := some ⟨none, some [("lang", "en")], none, none⟩, prodCfg := none } true).2
      ⟨none, some [("lang", "en")], none, none⟩ rfl

theorem filterMap_getElem_length {α : Type} (rows : List α) :
    ∀ draw : List ℕ, (∀ i ∈ draw, i < rows.length) →
      (draw.filterMap (fun i => rows[i]?)).length = draw.length := by
  intro draw
  induction draw with
  | nil => intro _; rfl
  | cons i is ih =>
    intro h
    have hi : i < rows.length := h i (List.mem_cons_self i is)
    have : rows[i]? = some rows[i] := List.getElem?_eq_getElem hi
    simp only [List.filterMap_cons, this, List.length_cons]
    rw [ih (fun j hj => h j (List.mem_cons_of_mem i hj))]

/-- C3 (code bug): split_train_valid ignores its frac parameter; df.sample is
called with the literal frac=0.7.  With data_pars giving frac = 1 (as the
module's own test() sets before re-splitting) and a 10-row dataset, the train
file receives round(0.7 * 10) = 7 rows, not the 10 rows that fraction 1
requires. -/
theorem split_train_valid_ignores_frac (draw : List ℕ) (h : DrawOk 10 draw) :
    (split_train_valid 1 (List.range 10) draw).1.length = 7 ∧
    pandasSampleSize 1 10 = 10 ∧
    ((split_train_valid 1 (List.range 10) draw).1.length : ℤ) ≠ pandasSampleSize 1 10 := by
  have hlen : (draw.length : ℤ) = pandasSampleSize (7 / 10) 10 := h.len
  have hsz : pandasSampleSize (7 / 10) 10 = 7 := by
    have h1 : (7 / 10 : ℚ) * ((10 : ℕ) : ℚ) = 7 := by norm_num
    simp [pandasSampleSize, h1, pythonRound, ratFloor]
  have hten : pandasSampleSize 1 10 = 10 := by
    have h1 : (1 : ℚ) * ((10 : ℕ) : ℚ) = 10 := by norm_num
    simp [pandasSampleSize, h1, pythonRound, ratFloor]
  have hdl : draw.length = 7 := by
    rw [hsz] at hlen
    exact_mod_cast hlen
  have htr : (split_train_valid 1 (List.range 10) draw).1.length = 7 := by
    simp only [split_train_valid]
    rw [filterMap_getElem_length (List.range 10) draw]
    · exact hdl
    · intro i hi
      simpa using h.mem i hi
  refine ⟨htr, hten, ?_⟩
  rw [htr, hten]
  decide

/-- Witness for C3 at a concrete draw of 7 of the 10 row positions. -/
theorem split_train_valid_ignores_frac_witness :
    DrawOk 10 [0, 1, 2, 3, 4, 5, 6] ∧
    (split_train_valid 1 (List.range 10) [0, 1, 2, 3, 4, 5, 6]).1.length = 7 := by
  have hd : DrawOk 10 [0, 1, 2, 3, 4, 5, 6] := by
    refine ⟨by decide, by decide, ?_⟩
    have h1 : (7 / 10 : ℚ) * ((10 : ℕ) : ℚ) = 7 := by norm_num
    simp [pandasSampleSize, h1, pythonRound, ratFloor]
  exact ⟨hd, (split_train_valid_ignores_frac [0, 1, 2, 3, 4, 5, 6] hd).1⟩

/-! ## C2: what _train reports -/

/-- The per-batch records of one _train epoch (the recorded batch loop). -/
def trainRecs (ex : ExLoss) (optStep : Opt → TCParams → Batch → List ℚ → Opt × TCParams)
    (m : ModelState) (device : Option TorchDevice) (train_itr : List Batch)
    (o : Opt) (masks : ℕ → List ℚ) : List StepRec :=
  (trainSteps ex optStep device masks 0 m.params o train_itr).2.2

/-- Modelled from the claim: the total per-example loss of the epoch divided
by the number of examples of the split. -/
def perExampleAverageLoss (recs : List StepRec) (size : ℕ) : ℚ :=
  ((recs.map (fun r => r.perExampleLoss.sum)).sum) / (size : ℚ)

theorem batchEval_batchLoss (ex : ExLoss) (p : TCParams) (training : Bool) (mask : List ℚ)
    (device : Option TorchDevice) (b : Batch) :
    (batchEval ex p training mask device b).batchLoss =
      (batchEval ex p training mask device b).perExampleLoss.sum /
        ((batchEval ex p training mask device b).bsize : ℚ) := by
  simp [batchEval, crossEntropyMean]

theorem trainSteps_mem (ex : ExLoss)
    (optStep : Opt → TCParams → Batch → List ℚ → Opt × TCParams)
    (device : Option TorchDevice) (masks : ℕ → List ℚ) (P : StepRec → Prop)
    (hP : ∀ p i b, P (batchEval ex p true (masks i) device b)) :
    ∀ (i : ℕ) (p : TCParams) (o : Opt) (bs : List Batch),
      ∀ r ∈ (trainSteps ex optStep device masks i p o bs).2.2, P r := by
  intro i p o bs
  induction bs generalizing i p o with
  | nil => intro r hr; simp [trainSteps] at hr
  | cons b bs ih =>
    intro r hr
    simp only [trainSteps, List.mem_cons] at hr
    rcases hr with h | h
    · rw [h]; exact hP p i b
    · exact ih (i + 1) _ _ r h

/-- C2 amended: _train reports the sum over batches of the batch-mean
cross-entropy (loss.item() adds F.cross_entropy's mean reduction) divided by
the number of examples, together with percentage accuracy 100 times the
correct count over the number of examples; the reported loss coincides with
the per-example average loss of the claim when every batch has size one. -/
theorem train_reports (ex : ExLoss)
    (optStep : Opt → TCParams → Batch → List ℚ → Opt × TCParams)
    (m : ModelState) (device : Option TorchDevice) (itr : List Batch)
    (o : Opt) (masks : ℕ → List ℚ) :
    (_train ex optStep m device itr o masks).2.2.1 =
      ((trainRecs ex optStep m device itr o masks).map (fun r => r.batchLoss)).sum /
        (datasetSize itr : ℚ) ∧
    (_train ex optStep m device itr o masks).2.2.2 =
      100 * ((trainRecs ex optStep m device itr o masks).map (fun r => (r.correct : ℚ))).sum /
        (datasetSize itr : ℚ) ∧
    ((∀ r ∈ trainRecs ex optStep m device itr o masks, r.bsize = 1) →
      (_train ex optStep m device itr o masks).2.2.1 =
        perExampleAverageLoss (trainRecs ex optStep m device itr o masks) (datasetSize itr)) := by
  refine ⟨rfl, rfl, ?_⟩
  intro h1
  have hb : ∀ r ∈ trainRecs ex optStep m device itr o masks,
      r.batchLoss = r.perExampleLoss.sum / (r.bsize : ℚ) :=
    trainSteps_mem ex optStep device masks
      (fun r => r.batchLoss = r.perExampleLoss.sum / (r.bsize : ℚ))
      (fun p i b => batchEval_batchLoss ex p true (masks i) device b) 0 m.params o itr
  have key : ∀ r ∈ trainRecs ex optStep m device itr o masks,
      r.batchLoss = r.perExampleLoss.sum := by
    intro r hr
    rw [hb r hr, h1 r hr]
    norm_num
  show ((trainRecs ex optStep m device itr o masks).map (fun r => r.batchLoss)).sum /
      (datasetSize itr : ℚ) = _
  rw [List.map_congr_left key]
  rfl

/-- Ingredients of the concrete C2 counterexample run: a per-example loss
that is 0 on shifted target 0 and 4 otherwise, an optimizer step that changes
nothing, a model with no convolutions and zero linear layer, and two batches
of two examples each. -/
def exC2 : ExLoss := fun _ t => if t = 0 then 0 else 4

/-- Optimizer step of the counterexample run: parameters left unchanged. -/
def optStepId : Unit → TCParams → Batch → List ℚ → Unit × TCParams := fun o p _ _ => (o, p)

/-- Model parameters of the counterexample run. -/
def pC2 : TCParams := { embed := [[1]], convs := [], fcW := [[], []], fcB := [0, 0] }

/-- Module state of the counterexample run. -/
def mC2 : ModelState := { params := pC2, training := false }

/-- First batch: two examples of label 1 (shifted to target 0). -/
def batchA : Batch :=
  { text := ⟨[[0, 0]], TorchDevice.cpu⟩, label := ⟨[1, 1], TorchDevice.cpu⟩ }

/-- Second batch: two examples of label 2 (shifted to target 1). -/
def batchB : Batch :=
  { text := ⟨[[0, 0]], TorchDevice.cpu⟩, label := ⟨[2, 2], TorchDevice.cpu⟩ }

/-- C2 counterexample: on a 4-example epoch split into two 2-example batches
with per-example losses 0,0,4,4, the loop reports (0 + 4)/4 = 1, while the
total per-example loss divided by the number of examples is 8/4 = 2. -/
theorem train_loss_not_example_average :
    (_train exC2 optStepId mC2 none [batchA, batchB] () (fun _ => [])).2.2.1 = 1 ∧
    perExampleAverageLoss (trainRecs exC2 optStepId mC2 none [batchA, batchB] () (fun _ => []))
      (datasetSize [batchA, batchB]) = 2 ∧
    (1 : ℚ) ≠ 2 := by
  have ht : ([[0, 0]] : List (List ℕ)).transpose = [[0], [0]] := by decide
  refine ⟨?_, ?_, by norm_num⟩
  · simp [_train, trainSteps, batchEval, batchA, batchB, exC2, optStepId, mC2, pC2,
      tensorTo, ht, crossEntropyMean, countCorrect, argmaxIdx, forward, dropoutApply,
      lookupRow, convMap, maxPool, dotQ]
    norm_num [datasetSize]
  · simp [perExampleAverageLoss, trainRecs, trainSteps, batchEval, batchA, batchB, exC2,
      optStepId, mC2, pC2, tensorTo, ht, crossEntropyMean, countCorrect, argmaxIdx,
      forward, dropoutApply, lookupRow, convMap, maxPool, dotQ]
    norm_num [datasetSize]

/-- A single-example batch for the C2 witness. -/
def batchC : Batch :=
  { text := ⟨[[0]], TorchDevice.cpu⟩, label := ⟨[1], TorchDevice.cpu⟩ }

/-- Witness for C2 at a run whose batches all have size one. -/
theorem train_reports_witness :
    (∀ r ∈ trainRecs exC2 optStepId mC2 none [batchC] () (fun _ => []), r.bsize = 1) ∧
    (_train exC2 optStepId mC2 none [batchC] () (fun _ => [])).2.2.1 =
      perExampleAverageLoss (trainRecs exC2 optStepId mC2 none [batchC] () (fun _ => []))
        (datasetSize [batchC]) := by
  have ht : ([[0]] : List (List ℕ)).transpose = [[0]] := by decide
  have hb : ∀ r ∈ trainRecs exC2 optStepId mC2 none [batchC] () (fun _ => []), r.bsize = 1 := by
    intro r hr
    simp only [trainRecs, trainSteps, batchEval, batchC, exC2, optStepId, mC2, pC2, tensorTo,
      ht, List.mem_cons, List.not_mem_nil, or_false] at hr
    rw [hr]
    simp
  exact ⟨hb, (train_reports exC2 optStepId mC2 none [batchC] () (fun _ => [])).2.2 hb⟩

/-! ## C8: bounds on the reported metrics -/

theorem zipWith_exloss_sum_nonneg (ex : ExLoss) (hex : ∀ l t, 0 ≤ ex l t) :
    ∀ (ls : List (List ℚ)) (ts : List ℤ), 0 ≤ (List.zipWith ex ls ts).sum := by
  intro ls
  induction ls with
  | nil => intro ts; simp
  | cons l ls ih =>
    intro ts
    cases ts with
    | nil => simp
    | cons t ts =>
      simp only [List.zipWith_cons_cons, List.sum_cons]
      exact add_nonneg (hex l t) (ih ts)

theorem batchEval_loss_nonneg (ex : ExLoss) (hex : ∀ l t, 0 ≤ ex l t) (p : TCParams)
    (training : Bool) (mask : List ℚ) (device : Option TorchDevice) (b : Batch) :
    0 ≤ (batchEval ex p training mask device b).batchLoss := by
  simp only [batchEval, crossEntropyMean]
  exact div_nonneg (zipWith_exloss_sum_nonneg ex hex _ _) (Nat.cast_nonneg _)

theorem countCorrect_le (ls : List (List ℚ)) : ∀ ts : List ℤ, countCorrect ls ts ≤ ts.length := by
  induction ls with
  | nil => intro ts; simp [countCorrect]
  | cons l ls ih =>
    intro ts
    cases ts with
    | nil => simp [countCorrect]
    | cons t ts =>
      simp only [countCorrect, List.zipWith_cons_cons, List.sum_cons, List.length_cons]
      have := ih ts
      simp only [countCorrect] at this
      split <;> omega

theorem batchEval_correct_le (ex : ExLoss) (p : TCParams) (training : Bool) (mask : List ℚ)
    (device : Option TorchDevice) (b : Batch) :
    (batchEval ex p training mask device b).correct ≤ b.label.val.length := by
  simp only [batchEval]
  calc countCorrect _ ((tensorTo device
          { val := b.label.val.map (fun v => v - 1), dev := b.label.dev }).val)
      ≤ ((tensorTo device
          { val := b.label.val.map (fun v => v - 1), dev := b.label.dev }).val).length :=
        countCorrect_le _ _
    _ = b.label.val.length := by rw [tensorTo_val]; exact List.length_map _ _

theorem validSteps_mem (ex : ExLoss) (p : TCParams) (device : Option TorchDevice)
    (masks : ℕ → List ℚ) (P : StepRec → Prop)
    (hP : ∀ i b, P (batchEval ex p false (masks i) device b)) :
    ∀ (i : ℕ) (bs : List Batch), ∀ r ∈ validSteps ex p device masks i bs, P r := by
  intro i bs
  induction bs generalizing i with
  | nil => intro r hr; simp [validSteps] at hr
  | cons b bs ih =>
    intro r hr
    simp only [validSteps, List.mem_cons] at hr
    rcases hr with h | h
    · rw [h]; exact hP i b
    · exact ih (i + 1) r h

theorem trainSteps_correct_le (ex : ExLoss)
    (optStep : Opt → TCParams → Batch → List ℚ → Opt × TCParams)
    (device : Option TorchDevice) (masks : ℕ → List ℚ) :
    ∀ (i : ℕ) (p : TCParams) (o : Opt) (bs : List Batch),
      (((trainSteps ex optStep device masks i p o bs).2.2.map
        (fun r => (r.correct : ℚ))).sum) ≤ (datasetSize bs : ℚ) := by
  intro i p o bs
  induction bs generalizing i p o with
  | nil => simp [trainSteps, datasetSize]
  | cons b bs ih =>
    simp only [trainSteps, List.map_cons, List.sum_cons, datasetSize, List.map, List.sum_cons]
    push_cast
    have h1 : ((batchEval ex p true (masks i) device b).correct : ℚ) ≤
        (b.label.val.length : ℚ) := by
      exact_mod_cast batchEval_correct_le ex p true (masks i) device b
    have h2 := ih (i + 1) ((optStep o p b (masks i)).2) ((optStep o p b (masks i)).1)
    simp only [datasetSize] at h2
    push_cast at h2
    linarith

theorem validSteps_correct_le (ex : ExLoss) (p : TCParams) (device : Option TorchDevice)
    (masks : ℕ → List ℚ) :
    ∀ (i : ℕ) (bs : List Batch),
      ((validSteps ex p device masks i bs).map (fun r => (r.correct : ℚ))).sum ≤
        (datasetSize bs : ℚ) := by
  intro i bs
  induction bs generalizing i with
  | nil => simp [validSteps, datasetSize]
  | cons b bs ih =>
    simp only [validSteps, List.map_cons, List.sum_cons, datasetSize, List.map, List.sum_cons]
    push_cast
    have h1 : ((batchEval ex p false (masks i) device b).correct : ℚ) ≤
        (b.label.val.length : ℚ) := by
      exact_mod_cast batchEval_correct_le ex p false (masks i) device b
    have h2 := ih (i + 1)
    simp only [datasetSize] at h2
    push_cast at h2
    linarith

theorem _train_loss_def (ex : ExLoss)
    (optStep : Opt → TCParams → Batch → List ℚ → Opt × TCParams)
    (m : ModelState) (device : Option TorchDevice) (itr : List Batch)
    (o : Opt) (masks : ℕ → List ℚ) :
    (_train ex optStep m device itr o masks).2.2.1 =
      ((trainSteps ex optStep device masks 0 m.params o itr).2.2.map
        (fun r => r.batchLoss)).sum / (datasetSize itr : ℚ) := rfl

theorem _train_acc_def (ex : ExLoss)
    (optStep : Opt → TCParams → Batch → List ℚ → Opt × TCParams)
    (m : ModelState) (device : Option TorchDevice) (itr : List Batch)
    (o : Opt) (masks : ℕ → List ℚ) :
    (_train ex optStep m device itr o masks).2.2.2 =
      100 * ((trainSteps ex optStep device masks 0 m.params o itr).2.2.map
        (fun r => (r.correct : ℚ))).sum / (datasetSize itr : ℚ) := rfl

theorem _valid_loss_def (ex : ExLoss) (m : ModelState) (device : Option TorchDevice)
    (vitr : List Batch) (vmasks : ℕ → List ℚ) :
    (_valid ex m device vitr vmasks).2.1 =
      ((validSteps ex m.params device vmasks 0 vitr).map
        (fun r => r.batchLoss)).sum / (datasetSize vitr : ℚ) := rfl

theorem _valid_acc_def (ex : ExLoss) (m : ModelState) (device : Option TorchDevice)
    (vitr : List Batch) (vmasks : ℕ → List ℚ) :
    (_valid ex m device vitr vmasks).2.2 =
      100 * ((validSteps ex m.params device vmasks 0 vitr).map
        (fun r => (r.correct : ℚ))).sum / (datasetSize vitr : ℚ) := rfl

theorem correct_sum_nonneg (recs : List StepRec) :
    0 ≤ (recs.map (fun r => (r.correct : ℚ))).sum := by
  apply List.sum_nonneg
  intro x hx
  rcases List.mem_map.1 hx with ⟨r, _, rfl⟩
  exact Nat.cast_nonneg _

theorem loss_sum_nonneg (recs : List StepRec) (h : ∀ r ∈ recs, 0 ≤ r.batchLoss) :
    0 ≤ (recs.map (fun r => r.batchLoss)).sum := by
  apply List.sum_nonneg
  intro x hx
  rcases List.mem_map.1 hx with ⟨r, hr, rfl⟩
  exact h r hr

theorem acc_formula_bounds (s : ℚ) (n : ℕ) (hs0 : 0 ≤ s) (hsn : s ≤ (n : ℚ)) (hn : 0 < n) :
    0 ≤ 100 * s / (n : ℚ) ∧ 100 * s / (n : ℚ) ≤ 100 := by
  have hnq : (0 : ℚ) < (n : ℚ) := by exact_mod_cast hn
  constructor
  · exact div_nonneg (by linarith) (le_of_lt hnq)
  · rw [div_le_iff₀ hnq]
    linarith

set_option maxHeartbeats 1600000 in
/-- C8: for a non-empty split (and the nonnegative per-example cross-entropy
torch computes), the loss reported by _train and by _valid is nonnegative and
the reported accuracy lies in [0, 100]. -/
theorem train_valid_metrics_bounded (ex : ExLoss)
    (optStep : Opt → TCParams → Batch → List ℚ → Opt × TCParams)
    (m : ModelState) (device : Option TorchDevice) (itr vitr : List Batch)
    (o : Opt) (masks vmasks : ℕ → List ℚ)
    (hex : ∀ l t, 0 ≤ ex l t) (hsz : 0 < datasetSize itr) (hvsz : 0 < datasetSize vitr) :
    (0 ≤ (_train ex optStep m device itr o masks).2.2.1 ∧
      0 ≤ (_train ex optStep m device itr o masks).2.2.2 ∧
      (_train ex optStep m device itr o masks).2.2.2 ≤ 100) ∧
    (0 ≤ (_valid ex m device vitr vmasks).2.1 ∧
      0 ≤ (_valid ex m device vitr vmasks).2.2 ∧
      (_valid ex m device vitr vmasks).2.2 ≤ 100) := by
  have hloss : 0 ≤ ((trainSteps ex optStep device masks 0 m.params o itr).2.2.map
      (fun r => r.batchLoss)).sum := by
    apply loss_sum_nonneg
    exact trainSteps_mem ex optStep device masks (fun r => 0 ≤ r.batchLoss)
      (fun p i b => batchEval_loss_nonneg ex hex p true (masks i) device b) 0 m.params o itr
  have hacc := acc_formula_bounds
    (((trainSteps ex optStep device masks 0 m.params o itr).2.2.map
      (fun r => (r.correct : ℚ))).sum) (datasetSize itr)
    (correct_sum_nonneg _) (trainSteps_correct_le ex optStep device masks 0 m.params o itr)
    hsz
  have vloss : 0 ≤ ((validSteps ex m.params device vmasks 0 vitr).map
      (fun r => r.batchLoss)).sum := by
    apply loss_sum_nonneg
    exact validSteps_mem ex m.params device vmasks (fun r => 0 ≤ r.batchLoss)
      (fun i b => batchEval_loss_nonneg ex hex m.params false (vmasks i) device b) 0 vitr
  have vacc := acc_formula_bounds
    (((validSteps ex m.params device vmasks 0 vitr).map (fun r => (r.correct : ℚ))).sum)
    (datasetSize vitr) (correct_sum_nonneg _)
    (validSteps_correct_le ex m.params device vmasks 0 vitr) hvsz
  rw [_train_loss_def, _train_acc_def, _valid_loss_def, _valid_acc_def]
  exact ⟨⟨div_nonneg hloss (Nat.cast_nonneg _), hacc.1, hacc.2⟩,
    ⟨div_nonneg vloss (Nat.cast_nonneg _), vacc.1, vacc.2⟩⟩

/-- Witness for C8 at a concrete nonnegative per-example loss and a concrete
one-example split. -/
theorem train_valid_metrics_bounded_witness :
    (∀ l t, 0 ≤ (fun (_ : List ℚ) (_ : ℤ) => (1 : ℚ)) l t) ∧
    0 < datasetSize [batchC] ∧
    0 ≤ (_train (fun _ _ => 1) optStepId mC2 none [batchC] () (fun _ => [])).2.2.1 ∧
    (_valid (fun _ _ => 1) mC2 none [batchC] (fun _ => [])).2.2 ≤ 100 := by
  have hex : ∀ l t, 0 ≤ (fun (_ : List ℚ) (_ : ℤ) => (1 : ℚ)) l t := by
    intro l t
    norm_num
  have hsz : 0 < datasetSize [batchC] := by decide
  have h := train_valid_metrics_bounded (fun _ _ => 1) optStepId mC2 none [batchC] [batchC]
    () (fun _ => []) (fun _ => []) hex hsz hsz
  exact ⟨hex, hsz, h.1.1, h.2.2.2⟩

/-! ## C4: checkpoint writes in fit -/

theorem valid_acc_nonneg (ex : ExLoss) (m : ModelState) (device : Option TorchDevice)
    (vitr : List Batch) (vmasks : ℕ → List ℚ) :
    0 ≤ (_valid ex m device vitr vmasks).2.2 := by
  rw [_valid_acc_def]
  have h0 := correct_sum_nonneg (validSteps ex m.params device vmasks 0 vitr)
  exact div_nonneg (by linarith) (Nat.cast_nonneg _)

theorem best2_lt_iff (best a0 a : ℚ) :
    ((if best < a0 then a0 else best) < a) ↔ (best < a ∧ a0 < a) := by
  split
  case isTrue h =>
    exact ⟨fun ha => ⟨lt_trans h ha, ha⟩, fun ha => ha.2⟩
  case isFalse h =>
    exact ⟨fun ha => ⟨ha, lt_of_le_of_lt (le_of_not_lt h) ha⟩, fun ha => ha.1⟩

theorem fitLoop_length (ex : ExLoss)
    (optStep : Opt → TCParams → Batch → List ℚ → Opt × TCParams)
    (device : Option TorchDevice) (ti vi : List Batch) (tm vm : ℕ → ℕ → List ℚ)
    (op : OutPars) :
    ∀ (k e : ℕ) (m : ModelState) (o : Opt) (best : ℚ),
      ((fitLoop ex optStep device ti vi tm vm op k e m o best).2.2).length = k := by
  intro k
  induction k with
  | zero => intro e m o best; rfl
  | succ k ih =>
    intro e m o best
    simp only [fitLoop, List.length_cons]
    rw [ih]

theorem fitLoop_saved_path (ex : ExLoss)
    (optStep : Opt → TCParams → Batch → List ℚ → Opt × TCParams)
    (device : Option TorchDevice) (ti vi : List Batch) (tm vm : ℕ → ℕ → List ℚ)
    (op : OutPars) :
    ∀ (k e : ℕ) (m : ModelState) (o : Opt) (best : ℚ),
      ∀ r ∈ (fitLoop ex optStep device ti vi tm vm op k e m o best).2.2,
        ∀ w, r.saved = some w → w.1 = osPathJoin op.checkpointdir "best_accuracy" := by
  intro k
  induction k with
  | zero => intro e m o best r hr; simp [fitLoop] at hr
  | succ k ih =>
    intro e m o best r hr w hw
    simp only [fitLoop, List.mem_cons] at hr
    rcases hr with h | h
    · rw [h] at hw
      simp only at hw
      split at hw
      · exact (Option.some_inj.1 hw) ▸ rfl
      · exact absurd hw (by simp)
    · exact ih (e + 1) _ _ _ r h w hw

theorem fitLoop_saved_spec (ex : ExLoss)
    (optStep : Opt → TCParams → Batch → List ℚ → Opt × TCParams)
    (device : Option TorchDevice) (ti vi : List Batch) (tm vm : ℕ → ℕ → List ℚ)
    (op : OutPars) :
    ∀ (k e : ℕ) (m : ModelState) (o : Opt) (best : ℚ) (j : ℕ), j < k →
      0 ≤ (((fitLoop ex optStep device ti vi tm vm op k e m o best).2.2).getD j
        default).ts_acc ∧
      ((((fitLoop ex optStep device ti vi tm vm op k e m o best).2.2).getD j
          default).saved.isSome = true ↔
        best < (((fitLoop ex optStep device ti vi tm vm op k e m o best).2.2).getD j
            default).ts_acc ∧
          ∀ i, i < j →
            (((fitLoop ex optStep device ti vi tm vm op k e m o best).2.2).getD i
                default).ts_acc <
              (((fitLoop ex optStep device ti vi tm vm op k e m o best).2.2).getD j
                default).ts_acc) := by
  intro k
  induction k with
  | zero => intro e m o best j hj; omega
  | succ k ih =>
    intro e m o best j hj
    simp only [fitLoop]
    cases j with
    | zero =>
      simp only [List.getD_cons_zero]
      refine ⟨valid_acc_nonneg _ _ _ _ _, ?_⟩
      constructor
      · intro hs
        refine ⟨?_, fun i hi => absurd hi (Nat.not_lt_zero i)⟩
        by_contra hb
        simp only [if_neg hb, Option.isSome_none] at hs
        exact Bool.false_ne_true hs
      · intro hb
        simp only [if_pos hb.1, Option.isSome_some]
    | succ j =>
      have hjk : j < k := Nat.succ_lt_succ_iff.1 hj
      have hrec := ih (e + 1)
        (_valid ex (_train ex optStep m device ti o (tm e)).1 device vi (vm e)).1
        (_train ex optStep m device ti o (tm e)).2.1
        (if best < (_valid ex (_train ex optStep m device ti o (tm e)).1 device vi
            (vm e)).2.2 then
          (_valid ex (_train ex optStep m device ti o (tm e)).1 device vi (vm e)).2.2
        else best) j hjk
      simp only [List.getD_cons_succ]
      refine ⟨hrec.1, ?_⟩
      rw [hrec.2, best2_lt_iff]
      constructor
      · rintro ⟨⟨hb, h0⟩, hall⟩
        refine ⟨hb, ?_⟩
        intro i hi
        cases i with
        | zero => simpa using h0
        | succ i => exact hall i (Nat.succ_lt_succ_iff.1 hi)
      · rintro ⟨hb, hall⟩
        refine ⟨⟨hb, ?_⟩, ?_⟩
        · simpa using hall 0 (Nat.succ_pos j)
        · intro i hi
          exact hall (i + 1) (Nat.succ_lt_succ hi)

/-- C4: in every run of fit, the checkpoint is written in an epoch exactly
when that epoch's validation accuracy strictly exceeds the validation
accuracies of all prior epochs of the run (the first epoch always writes,
since validation accuracy is nonnegative and the running best starts at -1),
and every write targets the same fixed path under the configured checkpoint
directory. -/
theorem fit_checkpoint_iff (cudaAvailable : Bool) (ex : ExLoss)
    (optStep : Opt → TCParams → Batch → List ℚ → Opt × TCParams) (optInit : ℚ → Opt)
    (model : ModelState) (ti vi : List Batch) (tm vm : ℕ → ℕ → List ℚ)
    (compute_pars : ComputePars) (out_pars : OutPars) (e : ℕ)
    (he : e < compute_pars.epochs) :
    ((((fit cudaAvailable ex optStep optInit model ti vi tm vm compute_pars
          out_pars).2.2).getD e default).saved.isSome = true ↔
      ∀ i, i < e →
        (((fit cudaAvailable ex optStep optInit model ti vi tm vm compute_pars
            out_pars).2.2).getD i default).ts_acc <
          (((fit cudaAvailable ex optStep optInit model ti vi tm vm compute_pars
            out_pars).2.2).getD e default).ts_acc) ∧
    (∀ r ∈ (fit cudaAvailable ex optStep optInit model ti vi tm vm compute_pars
        out_pars).2.2,
      ∀ w, r.saved = some w → w.1 = osPathJoin out_pars.checkpointdir "best_accuracy") := by
  have hspec := fitLoop_saved_spec ex optStep (_get_device cudaAvailable) ti vi tm vm
    out_pars compute_pars.epochs 1 model (optInit compute_pars.learning_rate) (-1) e he
  constructor
  · rw [show (fit cudaAvailable ex optStep optInit model ti vi tm vm compute_pars
        out_pars).2.2 = (fitLoop ex optStep (_get_device cudaAvailable) ti vi tm vm
        out_pars compute_pars.epochs 1 model (optInit compute_pars.learning_rate)
        (-1)).2.2 from rfl]
    rw [hspec.2]
    have hneg : (-1 : ℚ) < (((fitLoop ex optStep (_get_device cudaAvailable) ti vi tm vm
        out_pars compute_pars.epochs 1 model (optInit compute_pars.learning_rate)
        (-1)).2.2).getD e default).ts_acc :=
      lt_of_lt_of_le (by norm_num) hspec.1
    exact ⟨fun h => h.2, fun h => ⟨hneg, h⟩⟩
  · exact fitLoop_saved_path ex optStep (_get_device cudaAvailable) ti vi tm vm out_pars
      compute_pars.epochs 1 model (optInit compute_pars.learning_rate) (-1)

/-- Witness for C4 at a concrete one-epoch run: the first epoch writes the
checkpoint. -/
theorem fit_checkpoint_iff_witness :
    (0 : ℕ) < (ComputePars.mk 1 1).epochs ∧
    ((((fit true (fun _ _ => 0) optStepId (fun _ => ()) mC2 [] []
        (fun _ _ => []) (fun _ _ => []) (ComputePars.mk 1 1)
        (OutPars.mk "ckpt")).2.2).getD 0 default).saved.isSome = true) := by
  have he : (0 : ℕ) < (ComputePars.mk 1 1).epochs := by decide
  have h := (fit_checkpoint_iff true (fun _ _ => 0) optStepId (fun _ => ()) mC2 [] []
    (fun _ _ => []) (fun _ _ => []) (ComputePars.mk 1 1) (OutPars.mk "ckpt") 0 he).1
  exact ⟨he, h.mpr (fun i hi => absurd hi (Nat.not_lt_zero i))⟩

/-! ## clean_str (lines 113-131)

The thirteen re.sub rewrites of clean_str are embedded over List Char.
Each pattern here is a literal string, so re.sub is: scan left to right,
replace each non-overlapping occurrence, continue after the replaced text.
The replacement strings are the Python string literals after Python-level
escape processing: in a quoted (non-raw) Python string a backslash before an
apostrophe disappears, while a backslash before one of ( ) ? survives; the
re template engine then leaves a backslash followed by a non-letter alone.
Hence the contraction replacements insert only a space, but the replacements
for ( ) ? insert a literal backslash. -/

/-- The apostrophe character. -/
def apos : Char := Char.ofNat 39

/-- The backtick character. -/
def backquote : Char := Char.ofNat 96

/-- The backslash character. -/
def bslash : Char := '\\'

/-- Membership in the first rewrite's character class [A-Za-z0-9(),!?'`]. -/
def whitelisted (c : Char) : Bool :=
  (65 ≤ c.toNat && c.toNat ≤ 90) || (97 ≤ c.toNat && c.toNat ≤ 122) ||
  (48 ≤ c.toNat && c.toNat ≤ 57) ||
  c == '(' || c == ')' || c == ',' || c == '!' || c == '?' || c == apos || c == backquote

/-- The ASCII characters the regex class \s matches.  Inside clean_str the
\s{2,} rewrite runs after every non-whitelisted character (in particular
every non-space whitespace character) has been replaced by a space, so only
the plain space case can fire there. -/
def pyIsSpace (c : Char) : Bool :=
  c == ' ' || (9 ≤ c.toNat && c.toNat ≤ 13)

/-- re.sub for a literal pattern: scan the text; on a match emit the
replacement and skip the pattern length; otherwise keep one character.  The
first argument counts characters of a just-matched pattern still to be
consumed. -/
def substSkip (pat rep : List Char) : ℕ → List Char → List Char
  | _, [] => []
  | k + 1, _ :: cs => substSkip pat rep k cs
  | 0, c :: cs =>
    if pat.isPrefixOf (c :: cs) then rep ++ substSkip pat rep (pat.length - 1) cs
    else c :: substSkip pat rep 0 cs

/-- re.sub of a literal pattern pat by rep. -/
def subst (pat rep s : List Char) : List Char := substSkip pat rep 0 s

/-- re.sub(r"\s{2,}", " ", ...): replace every maximal run of two or more
whitespace characters by one space.  The flag records being inside a matched
run (the run's remaining whitespace is consumed). -/
def collapseA : Bool → List Char → List Char
  | _, [] => []
  | true, c :: cs => if pyIsSpace c then collapseA true cs else c :: collapseA false cs
  | false, c :: cs =>
    match cs with
    | [] => [c]
    | d :: _ =>
      if pyIsSpace c && pyIsSpace d then ' ' :: collapseA true cs
      else c :: collapseA false cs

/-- str.strip(): whitespace removed from both ends. -/
def pyStrip (s : List Char) : List Char :=
  ((s.dropWhile pyIsSpace).reverse.dropWhile pyIsSpace).reverse

/-- Embedding of clean_str: the thirteen re.sub rewrites in source order,
then strip. -/
def clean_str (s : List Char) : List Char :=
  let s1 := s.map (fun c => if whitelisted c then c else ' ')
  let s2 := subst [apos, 's'] [' ', apos, 's'] s1
  let s3 := subst [apos, 'v', 'e'] [' ', apos, 'v', 'e'] s2
  let s4 := subst ['n', apos, 't'] [' ', 'n', apos, 't'] s3
  let s5 := subst [apos, 'r', 'e'] [' ', apos, 'r', 'e'] s4
  let s6 := subst [apos, 'd'] [' ', apos, 'd'] s5
  let s7 := subst [apos, 'l', 'l'] [' ', apos, 'l', 'l'] s6
  let s8 := subst [','] [' ', ',', ' '] s7
  let s9 := subst ['!'] [' ', '!', ' '] s8
  let s10 := subst ['('] [' ', bslash, '(', ' '] s9
  let s11 := subst [')'] [' ', bslash, ')', ' '] s10
  let s12 := subst ['?'] [' ', bslash, '?', ' '] s11
  pyStrip (collapseA false s12)

/-! ### Prefix and occurrence facts -/

theorem nil_isPrefixOf (l : List Char) : ([] : List Char).isPrefixOf l = true := by
  cases l <;> rfl

theorem isPrefixOf_cons₂ (a b : Char) (as bs : List Char) :
    (a :: as).isPrefixOf (b :: bs) = (a == b && as.isPrefixOf bs) := rfl

theorem length_le_of_isPrefixOf :
    ∀ {p l : List Char}, p.isPrefixOf l = true → p.length ≤ l.length := by
  intro p
  induction p with
  | nil => intro l _; simp
  | cons a as ih =>
    intro l h
    cases l with
    | nil => simp [List.isPrefixOf] at h
    | cons b bs =>
      rw [isPrefixOf_cons₂, Bool.and_eq_true] at h
      simpa using ih h.2

theorem append_drop_of_isPrefixOf :
    ∀ {p l : List Char}, p.isPrefixOf l = true → p ++ l.drop p.length = l := by
  intro p
  induction p with
  | nil => intro l _; simp
  | cons a as ih =>
    intro l h
    cases l with
    | nil => simp [List.isPrefixOf] at h
    | cons b bs =>
      rw [isPrefixOf_cons₂, Bool.and_eq_true, beq_iff_eq] at h
      simp only [List.cons_append, List.length_cons, List.drop_succ_cons]
      rw [h.1, ih h.2]

theorem isPrefixOf_append_left :
    ∀ {p l : List Char} (t : List Char), p.isPrefixOf l = true →
      p.isPrefixOf (l ++ t) = true := by
  intro p
  induction p with
  | nil => intro l t _; exact nil_isPrefixOf _
  | cons a as ih =>
    intro l t h
    cases l with
    | nil => simp [List.isPrefixOf] at h
    | cons b bs =>
      rw [isPrefixOf_cons₂, Bool.and_eq_true] at h
      rw [List.cons_append, isPrefixOf_cons₂, Bool.and_eq_true]
      exact ⟨h.1, ih t h.2⟩

theorem isPrefixOf_trans :
    ∀ {q p l : List Char}, q.isPrefixOf p = true → p.isPrefixOf l = true →
      q.isPrefixOf l = true := by
  intro q
  induction q with
  | nil => intro p l _ _; exact nil_isPrefixOf _
  | cons a as ih =>
    intro p l h1 h2
    cases p with
    | nil => simp [List.isPrefixOf] at h1
    | cons b bs =>
      cases l with
      | nil => simp [List.isPrefixOf] at h2
      | cons c cs =>
        rw [isPrefixOf_cons₂, Bool.and_eq_true, beq_iff_eq] at h1 h2
        rw [isPrefixOf_cons₂, Bool.and_eq_true, beq_iff_eq]
        exact ⟨h1.1.trans h2.1, ih h1.2 h2.2⟩

theorem isPrefixOf_append_cases :
    ∀ {m q Y : List Char}, q.isPrefixOf (m ++ Y) = true →
      q.isPrefixOf m = true ∨ m.isPrefixOf q = true := by
  intro m
  induction m with
  | nil => intro q Y _; exact Or.inr (nil_isPrefixOf _)
  | cons b bs ih =>
    intro q Y h
    cases q with
    | nil => exact Or.inl (nil_isPrefixOf _)
    | cons a as =>
      rw [List.cons_append, isPrefixOf_cons₂, Bool.and_eq_true] at h
      rcases ih h.2 with h2 | h2
      · exact Or.inl (by rw [isPrefixOf_cons₂, Bool.and_eq_true]; exact ⟨h.1, h2⟩)
      · refine Or.inr ?_
        rw [isPrefixOf_cons₂, Bool.and_eq_true, beq_iff_eq]
        have h1 : a = b := by
          have := h.1
          rwa [beq_iff_eq] at this
        exact ⟨h1.symm, h2⟩

theorem isPrefixOf_sp_middle :
    ∀ {p : List Char}, ' ' ∉ p → ∀ {xs ys : List Char},
      (p.isPrefixOf (xs ++ ' ' :: ys) = true ↔ p.isPrefixOf xs = true) := by
  intro p
  induction p with
  | nil => intro _ xs ys; simp [nil_isPrefixOf]
  | cons a as ih =>
    intro hsp xs ys
    have ha : a ≠ ' ' := fun h => hsp (h ▸ List.mem_cons_self a as)
    cases xs with
    | nil =>
      simp only [List.nil_append, isPrefixOf_cons₂]
      constructor
      · intro h
        rw [Bool.and_eq_true, beq_iff_eq] at h
        exact absurd h.1 ha
      · intro h
        simp [List.isPrefixOf] at h
    | cons b bs =>
      simp only [List.cons_append, isPrefixOf_cons₂, Bool.and_eq_true]
      constructor
      · intro h
        exact ⟨h.1, (ih (fun hm => hsp (List.mem_cons_of_mem a hm))).1 h.2⟩
      · intro h
        exact ⟨h.1, (ih (fun hm => hsp (List.mem_cons_of_mem a hm))).2 h.2⟩

/-! ### substSkip facts -/

theorem substSkip_nil (pat rep : List Char) (k : ℕ) : substSkip pat rep k [] = [] := by
  cases k <;> rfl

theorem substSkip_succ (pat rep : List Char) (k : ℕ) (c : Char) (cs : List Char) :
    substSkip pat rep (k + 1) (c :: cs) = substSkip pat rep k cs := rfl

theorem substSkip_zero_match (pat rep : List Char) {c : Char} {cs : List Char}
    (h : pat.isPrefixOf (c :: cs) = true) :
    substSkip pat rep 0 (c :: cs) = rep ++ substSkip pat rep (pat.length - 1) cs := by
  rw [substSkip, if_pos h]

theorem substSkip_zero_nomatch (pat rep : List Char) {c : Char} {cs : List Char}
    (h : ¬ pat.isPrefixOf (c :: cs) = true) :
    substSkip pat rep 0 (c :: cs) = c :: substSkip pat rep 0 cs := by
  rw [substSkip, if_neg h]

theorem substSkip_drop (pat rep : List Char) :
    ∀ (k : ℕ) (cs : List Char), k ≤ cs.length →
      substSkip pat rep k cs = substSkip pat rep 0 (cs.drop k) := by
  intro k
  induction k with
  | zero => intro cs _; rfl
  | succ k ih =>
    intro cs hk
    cases cs with
    | nil => simp at hk
    | cons c cs =>
      rw [substSkip_succ, List.drop_succ_cons]
      exact ih cs (Nat.succ_le_succ_iff.1 hk)

theorem subst_match {pat : List Char} (rep : List Char) {w : List Char}
    (hne : pat ≠ []) (hpre : pat.isPrefixOf w = true) :
    subst pat rep w = rep ++ subst pat rep (w.drop pat.length) := by
  cases w with
  | nil =>
    cases pat with
    | nil => exact absurd rfl hne
    | cons p ps => simp [List.isPrefixOf] at hpre
  | cons c cs =>
    rw [subst, substSkip_zero_match pat rep hpre]
    have hlen : pat.length - 1 ≤ cs.length := by
      have := length_le_of_isPrefixOf hpre
      simp only [List.length_cons] at this
      omega
    rw [substSkip_drop pat rep (pat.length - 1) cs hlen]
    have hlp : 0 < pat.length := by
      cases pat with
      | nil => exact absurd rfl hne
      | cons p ps => simp
    have : (c :: cs).drop pat.length = cs.drop (pat.length - 1) := by
      cases hp : pat.length with
      | zero => omega
      | succ n => simp [hp, List.drop_succ_cons]
    rw [this]
    rfl

theorem subst_sp_cons {p : Char} {ps : List Char} (rep : List Char) (hp : p ≠ ' ')
    (xs : List Char) :
    subst (p :: ps) rep (' ' :: xs) = ' ' :: subst (p :: ps) rep xs := by
  rw [subst, substSkip_zero_nomatch]
  · rfl
  · rw [isPrefixOf_cons₂, Bool.and_eq_true, beq_iff_eq]
    rintro ⟨h1, _⟩
    exact hp h1

/-! ### Occurrences of a literal pattern -/

/-- Whether pat occurs (as a contiguous segment) anywhere in the text. -/
def occursB (pat : List Char) : List Char → Bool
  | [] => pat.isPrefixOf []
  | c :: cs => pat.isPrefixOf (c :: cs) || occursB pat cs

theorem occursB_nil (p : Char) (ps : List Char) : occursB (p :: ps) [] = false := rfl

theorem occursB_cons (pat : List Char) (c : Char) (cs : List Char) :
    occursB pat (c :: cs) = (pat.isPrefixOf (c :: cs) || occursB pat cs) := rfl

theorem occursB_tail_of_false {pat : List Char} {c : Char} {cs : List Char}
    (h : occursB pat (c :: cs) = false) : occursB pat cs = false := by
  rw [occursB_cons, Bool.or_eq_false_iff] at h
  exact h.2

theorem not_isPrefixOf_of_occursB_false {pat : List Char} {c : Char} {cs : List Char}
    (h : occursB pat (c :: cs) = false) : pat.isPrefixOf (c :: cs) = false := by
  rw [occursB_cons, Bool.or_eq_false_iff] at h
  exact h.1

theorem occursB_drop {pat : List Char} :
    ∀ (k : ℕ) {w : List Char}, occursB pat w = false → occursB pat (w.drop k) = false := by
  intro k
  induction k with
  | zero => intro w h; exact h
  | succ k ih =>
    intro w h
    cases w with
    | nil => exact h
    | cons c cs => exact ih (occursB_tail_of_false h)

theorem occursB_short {pat : List Char} :
    ∀ {w : List Char}, w.length < pat.length → occursB pat w = false := by
  intro w
  induction w with
  | nil =>
    intro h
    cases pat with
    | nil => simp at h
    | cons p ps => rfl
  | cons c cs ih =>
    intro h
    rw [occursB_cons, Bool.or_eq_false_iff]
    constructor
    · by_contra hx
      rw [Bool.not_eq_false] at hx
      have := length_le_of_isPrefixOf hx
      omega
    · exact ih (by simp only [List.length_cons] at h; omega)

theorem occursB_append_right {pat : List Char} (xs : List Char) {ys : List Char}
    (h : occursB pat ys = true) : occursB pat (xs ++ ys) = true := by
  induction xs with
  | nil => exact h
  | cons c cs ih =>
    rw [List.cons_append, occursB_cons, Bool.or_eq_true]
    exact Or.inr ih

theorem occursB_nil_pat : ∀ (ys : List Char), occursB [] ys = true := by
  intro ys
  cases ys with
  | nil => rfl
  | cons d ds =>
    rw [occursB_cons, Bool.or_eq_true]
    exact Or.inl (nil_isPrefixOf _)

theorem occursB_append_left {pat : List Char} :
    ∀ {xs : List Char} (ys : List Char), occursB pat xs = true →
      occursB pat (xs ++ ys) = true := by
  intro xs
  induction xs with
  | nil =>
    intro ys h
    cases pat with
    | nil => exact occursB_nil_pat ys
    | cons p ps => simp [occursB] at h
  | cons c cs ih =>
    intro ys h
    rw [occursB_cons, Bool.or_eq_true] at h
    rw [List.cons_append, occursB_cons, Bool.or_eq_true]
    rcases h with h | h
    · exact Or.inl (isPrefixOf_append_left ys h)
    · exact Or.inr (ih ys h)

theorem occursB_embed {pat t : List Char} (pre post : List Char)
    (h : occursB pat t = true) : occursB pat (pre ++ t ++ post) = true := by
  rw [List.append_assoc]
  exact occursB_append_right pre (occursB_append_left post h)

theorem subst_of_no_occ {pat : List Char} (rep : List Char) :
    ∀ {w : List Char}, occursB pat w = false → subst pat rep w = w := by
  intro w
  induction w with
  | nil => intro _; rfl
  | cons c cs ih =>
    intro h
    rw [subst, substSkip_zero_nomatch pat rep
      (by rw [not_isPrefixOf_of_occursB_false h]; exact Bool.false_ne_true)]
    rw [show substSkip pat rep 0 cs = subst pat rep cs from rfl,
      ih (occursB_tail_of_false h)]

theorem substSkip_append_sp {pat : List Char} (rep : List Char) (hsp : ' ' ∉ pat)
    (hne : pat ≠ []) :
    ∀ (xs : List Char) (k : ℕ), k ≤ xs.length → ∀ (ys : List Char),
      substSkip pat rep k (xs ++ ' ' :: ys) =
        substSkip pat rep k xs ++ ' ' :: substSkip pat rep 0 ys := by
  intro xs
  induction xs with
  | nil =>
    intro k hk ys
    have hk0 : k = 0 := Nat.le_zero.1 hk
    subst hk0
    rw [substSkip_nil, List.nil_append, List.nil_append]
    cases pat with
    | nil => exact absurd rfl hne
    | cons p ps =>
      rw [substSkip_zero_nomatch]
      rw [isPrefixOf_cons₂, Bool.and_eq_true, beq_iff_eq]
      rintro ⟨h1, _⟩
      exact hsp (h1 ▸ List.mem_cons_self p ps)
  | cons c cs ih =>
    intro k hk ys
    cases k with
    | succ k =>
      rw [List.cons_append, substSkip_succ, substSkip_succ]
      exact ih k (by simpa using hk) ys
    | zero =>
      rw [List.cons_append]
      by_cases hm : pat.isPrefixOf (c :: (cs ++ ' ' :: ys)) = true
      · have hm2 : pat.isPrefixOf (c :: cs) = true := by
          have := (@isPrefixOf_sp_middle pat hsp (c :: cs) ys).1
          exact this (by simpa using hm)
        rw [substSkip_zero_match pat rep hm, substSkip_zero_match pat rep hm2]
        have hlen : pat.length - 1 ≤ cs.length := by
          have := length_le_of_isPrefixOf hm2
          simp only [List.length_cons] at this
          omega
        rw [ih (pat.length - 1) hlen ys, List.append_assoc]
      · have hm2 : ¬ pat.isPrefixOf (c :: cs) = true := by
          intro hx
          exact hm ((@isPrefixOf_sp_middle pat hsp (c :: cs) ys).2 hx)
        rw [substSkip_zero_nomatch pat rep hm, substSkip_zero_nomatch pat rep hm2]
        rw [ih 0 (Nat.zero_le _) ys, List.cons_append]

theorem subst_append_sp {pat : List Char} (rep : List Char) (hsp : ' ' ∉ pat)
    (hne : pat ≠ []) (xs ys : List Char) :
    subst pat rep (xs ++ ' ' :: ys) = subst pat rep xs ++ ' ' :: subst pat rep ys :=
  substSkip_append_sp rep hsp hne xs 0 (Nat.zero_le _) ys

theorem isPrefixOf_subst {pat rep : List Char} (hrep : ∃ r, rep = ' ' :: r) :
    ∀ {x q : List Char}, ' ' ∉ q → q.isPrefixOf (subst pat rep x) = true →
      q.isPrefixOf x = true := by
  intro x
  induction x with
  | nil => intro q _ h; exact h
  | cons c cs ih =>
    intro q hq h
    by_cases hm : pat.isPrefixOf (c :: cs) = true
    · rw [subst, substSkip_zero_match pat rep hm] at h
      rcases hrep with ⟨r, hr⟩
      cases q with
      | nil => exact nil_isPrefixOf _
      | cons a as =>
        rw [hr, List.cons_append, isPrefixOf_cons₂, Bool.and_eq_true, beq_iff_eq] at h
        exact absurd h.1 (fun hx => hq (hx ▸ List.mem_cons_self a as))
    · rw [subst, substSkip_zero_nomatch pat rep hm] at h
      cases q with
      | nil => exact nil_isPrefixOf _
      | cons a as =>
        rw [isPrefixOf_cons₂, Bool.and_eq_true] at h
        rw [isPrefixOf_cons₂, Bool.and_eq_true]
        exact ⟨h.1, ih (fun hm2 => hq (List.mem_cons_of_mem a hm2)) h.2⟩

/-! ### Tokens: maximal space-free runs -/

/-- The maximal space-free runs of the text, in order (what str.split() with
no argument returns when the only whitespace is the space character). -/
def splitSp : List Char → List (List Char)
  | [] => []
  | c :: cs =>
    if c = ' ' then splitSp cs
    else
      match cs with
      | [] => [[c]]
      | d :: _ =>
        if d = ' ' then [c] :: splitSp cs
        else
          match splitSp cs with
          | [] => [[c]]
          | t :: ts => (c :: t) :: ts

/-- Space-separated join of a token list. -/
def joinSp : List (List Char) → List Char
  | [] => []
  | [t] => t
  | t :: u :: ts => t ++ ' ' :: joinSp (u :: ts)

theorem splitSp_sp_cons (cs : List Char) : splitSp (' ' :: cs) = splitSp cs := by
  rw [splitSp.eq_def]
  simp

theorem splitSp_single {c : Char} (hc : c ≠ ' ') : splitSp [c] = [[c]] := by
  rw [splitSp.eq_def]
  simp [hc]

theorem splitSp_cons_sp {c : Char} (hc : c ≠ ' ') (ds : List Char) :
    splitSp (c :: ' ' :: ds) = [c] :: splitSp ds := by
  rw [splitSp.eq_def]
  simp only [hc, if_false]
  rw [splitSp_sp_cons]
  simp

theorem splitSp_cons_merge {c d : Char} (hc : c ≠ ' ') (hd : d ≠ ' ') {ds : List Char}
    {t : List Char} {ts : List (List Char)} (h : splitSp (d :: ds) = t :: ts) :
    splitSp (c :: d :: ds) = (c :: t) :: ts := by
  rw [splitSp.eq_def]
  simp only [hc, if_false, hd, h]

theorem splitSp_head :
    ∀ (ds : List Char) {d : Char}, d ≠ ' ' →
      ∃ t ts, splitSp (d :: ds) = (d :: t) :: ts := by
  intro ds
  induction ds with
  | nil => intro d hd; exact ⟨[], [], splitSp_single hd⟩
  | cons e es ih =>
    intro d hd
    by_cases he : e = ' '
    · subst he
      exact ⟨[], splitSp es, splitSp_cons_sp hd es⟩
    · rcases ih he with ⟨t, ts, h⟩
      exact ⟨e :: t, ts, splitSp_cons_merge hd he h⟩

theorem splitSp_append_sp :
    ∀ (xs ys : List Char), splitSp (xs ++ ' ' :: ys) = splitSp xs ++ splitSp ys := by
  intro xs
  induction xs with
  | nil =>
    intro ys
    rw [List.nil_append, splitSp_sp_cons]
    rfl
  | cons c cs ih =>
    intro ys
    by_cases hc : c = ' '
    · subst hc
      rw [List.cons_append, splitSp_sp_cons, splitSp_sp_cons]
      exact ih ys
    · cases cs with
      | nil =>
        rw [List.cons_append, List.nil_append, splitSp_cons_sp hc ys, splitSp_single hc]
        rfl
      | cons d ds =>
        by_cases hd : d = ' '
        · subst hd
          have h1 : (c :: ' ' :: ds) ++ ' ' :: ys = c :: ' ' :: (ds ++ ' ' :: ys) := rfl
          rw [h1, splitSp_cons_sp hc, splitSp_cons_sp hc]
          have h2 := ih ys
          rw [List.cons_append, splitSp_sp_cons] at h2
          rw [h2]
          rfl
        · rcases splitSp_head ds hd with ⟨t, ts, h⟩
          have h2 := ih ys
          rw [List.cons_append] at h2
          rw [h] at h2
          have hps : splitSp (d :: (ds ++ ' ' :: ys)) = (d :: t) :: (ts ++ splitSp ys) := by
            rw [h2]
            rfl
          have h3 : (c :: d :: ds) ++ ' ' :: ys = c :: d :: (ds ++ ' ' :: ys) := rfl
          rw [h3, splitSp_cons_merge hc hd hps, splitSp_cons_merge hc hd h]
          rfl

theorem splitSp_sp_free :
    ∀ {w : List Char}, (∀ c ∈ w, c ≠ ' ') → w ≠ [] → splitSp w = [w] := by
  intro w
  induction w with
  | nil => intro _ h; exact absurd rfl h
  | cons c cs ih =>
    intro ha _
    have hc : c ≠ ' ' := ha c (List.mem_cons_self c cs)
    cases cs with
    | nil => exact splitSp_single hc
    | cons d ds =>
      have hd : d ≠ ' ' := ha d (List.mem_cons_of_mem c (List.mem_cons_self d ds))
      have hcs : splitSp (d :: ds) = [d :: ds] :=
        ih (fun x hx => ha x (List.mem_cons_of_mem c hx)) (by simp)
      exact splitSp_cons_merge hc hd hcs

theorem splitSp_tokens :
    ∀ (u : List Char), ∀ t ∈ splitSp u, t ≠ [] ∧ ∀ c ∈ t, c ≠ ' ' := by
  intro u
  induction u with
  | nil => intro t ht; simp [splitSp] at ht
  | cons c cs ih =>
    intro t ht
    by_cases hc : c = ' '
    · subst hc
      rw [splitSp_sp_cons] at ht
      exact ih t ht
    · cases cs with
      | nil =>
        rw [splitSp_single hc] at ht
        simp only [List.mem_singleton] at ht
        subst ht
        refine ⟨by simp, ?_⟩
        intro x hx
        simp only [List.mem_singleton] at hx
        exact hx ▸ hc
      | cons d ds =>
        by_cases hd : d = ' '
        · subst hd
          rw [splitSp_cons_sp hc] at ht
          rcases List.mem_cons.1 ht with h | h
          · subst h
            refine ⟨by simp, ?_⟩
            intro x hx
            simp only [List.mem_singleton] at hx
            exact hx ▸ hc
          · refine ih t ?_
            rw [splitSp_sp_cons]
            exact h
        · rcases splitSp_head ds hd with ⟨t0, ts0, h0⟩
          rw [splitSp_cons_merge hc hd h0] at ht
          rcases List.mem_cons.1 ht with h | h
          · subst h
            have h1 := ih (d :: t0) (by rw [h0]; exact List.mem_cons_self _ _)
            refine ⟨by simp, ?_⟩
            intro x hx
            rcases List.mem_cons.1 hx with hx | hx
            · exact hx ▸ hc
            · exact h1.2 x hx
          · refine ih t ?_
            rw [h0]
            exact List.mem_cons_of_mem _ h

theorem splitSp_joinSp :
    ∀ (L : List (List Char)), splitSp (joinSp L) = L.flatMap splitSp := by
  intro L
  induction L with
  | nil => rfl
  | cons t ts ih =>
    cases ts with
    | nil => simp [joinSp, List.flatMap_cons]
    | cons u us =>
      rw [show joinSp (t :: u :: us) = t ++ ' ' :: joinSp (u :: us) from rfl,
        splitSp_append_sp, ih]
      rw [List.flatMap_cons t, List.flatMap_cons u]

theorem splitSp_subst_flat {pat : List Char} (rep : List Char) (hsp : ' ' ∉ pat)
    (hne : pat ≠ []) :
    ∀ (u : List Char), splitSp (subst pat rep u) =
      (splitSp u).flatMap (fun t => splitSp (subst pat rep t)) := by
  suffices h : ∀ (n : ℕ) (u : List Char), u.length ≤ n →
      splitSp (subst pat rep u) =
        (splitSp u).flatMap (fun t => splitSp (subst pat rep t)) by
    intro u
    exact h u.length u le_rfl
  intro n
  induction n with
  | zero =>
    intro u hu
    have hu0 : u = [] := List.length_eq_zero.1 (Nat.le_zero.1 hu)
    subst hu0
    rfl
  | succ n ih =>
    intro u hu
    cases u with
    | nil => rfl
    | cons c cs =>
      by_cases hc : c = ' '
      · subst hc
        obtain ⟨p, ps, rfl⟩ : ∃ p ps, pat = p :: ps := by
          cases pat with
          | nil => exact absurd rfl hne
          | cons p ps => exact ⟨p, ps, rfl⟩
        have hp : p ≠ ' ' := fun h => hsp (h ▸ List.mem_cons_self p ps)
        rw [subst_sp_cons rep hp, splitSp_sp_cons, splitSp_sp_cons]
        exact ih cs (by simpa using hu)
      · have hdec := List.takeWhile_append_dropWhile (fun x => !(x == ' ')) (c :: cs)
        cases hrest : (c :: cs).dropWhile (fun x => !(x == ' ')) with
        | nil =>
          rw [hrest, List.append_nil] at hdec
          have hfree : ∀ x ∈ c :: cs, x ≠ ' ' := by
            intro x hx
            have := List.mem_takeWhile_imp (hdec ▸ hx)
            simpa using this
          rw [splitSp_sp_free hfree (by simp)]
          simp
        | cons r rs =>
          have hr : r = ' ' := by
            have h1 : (fun x => !(x == ' ')) r = false := by
              have h2 : ∀ (l : List Char), l.dropWhile (fun x => !(x == ' ')) = r :: rs →
                  (fun x => !(x == ' ')) r = false := by
                intro l
                induction l with
                | nil => intro h; simp at h
                | cons a as iha =>
                  intro h
                  rw [List.dropWhile_cons] at h
                  by_cases ha : (fun x => !(x == ' ')) a = true
                  · rw [if_pos ha] at h
                    exact iha h
                  · rw [if_neg ha] at h
                    have : a = r := by
                      have := congrArg List.head? h
                      simpa using this
                    rw [← this]
                    simpa using ha
              exact h2 (c :: cs) hrest
            simpa using h1
          subst hr
          rw [hrest] at hdec
          have hfree : ∀ x ∈ (c :: cs).takeWhile (fun x => !(x == ' ')), x ≠ ' ' := by
            intro x hx
            have := List.mem_takeWhile_imp hx
            simpa using this
          have htwc : (c :: cs).takeWhile (fun x => !(x == ' ')) =
              c :: cs.takeWhile (fun x => !(x == ' ')) := by
            rw [List.takeWhile_cons, if_pos (by simpa using hc)]
          have hlen : rs.length ≤ n := by
            have := congrArg List.length hdec
            rw [List.length_append, htwc] at this
            simp only [List.length_cons] at this hu
            omega
          rw [← hdec, subst_append_sp rep hsp hne, splitSp_append_sp, splitSp_append_sp]
          rw [splitSp_sp_free hfree (by rw [htwc]; simp)]
          rw [ih rs hlen]
          rw [show ([(c :: cs).takeWhile (fun x => !(x == ' '))] ++ splitSp rs) =
            ((c :: cs).takeWhile (fun x => !(x == ' '))) :: splitSp rs from rfl]
          rw [List.flatMap_cons]

/-! ### Collapse and strip against tokens -/

theorem pyIsSpace_sp : pyIsSpace ' ' = true := by decide

theorem collapseA_true_eq :
    ∀ (s : List Char), collapseA true s = collapseA false (s.dropWhile pyIsSpace) := by
  intro s
  induction s with
  | nil => rfl
  | cons c cs ih =>
    by_cases hc : pyIsSpace c = true
    · rw [show collapseA true (c :: cs) = if pyIsSpace c then collapseA true cs
          else c :: collapseA false cs from rfl, if_pos hc, List.dropWhile_cons, if_pos hc]
      exact ih
    · rw [show collapseA true (c :: cs) = if pyIsSpace c then collapseA true cs
          else c :: collapseA false cs from rfl, if_neg hc, List.dropWhile_cons, if_neg hc]
      rw [Bool.not_eq_true] at hc
      cases cs with
      | nil => rfl
      | cons d ds =>
        rw [show collapseA false (c :: d :: ds) =
            (if pyIsSpace c && pyIsSpace d then ' ' :: collapseA true (d :: ds)
             else c :: collapseA false (d :: ds)) from rfl, hc]
        simp

theorem collapseA_head_nonspace {c : Char} (hc : pyIsSpace c = false) (cs : List Char) :
    collapseA false (c :: cs) = c :: collapseA false cs := by
  cases cs with
  | nil => rfl
  | cons d ds =>
    rw [show collapseA false (c :: d :: ds) =
        (if pyIsSpace c && pyIsSpace d then ' ' :: collapseA true (d :: ds)
         else c :: collapseA false (d :: ds)) from rfl, hc]
    simp

theorem collapseA_sp_cons (xs : List Char) :
    collapseA false (' ' :: xs) = ' ' :: collapseA false (xs.dropWhile pyIsSpace) := by
  cases xs with
  | nil => rfl
  | cons d ds =>
    by_cases hd : pyIsSpace d = true
    · rw [show collapseA false (' ' :: d :: ds) =
          (if pyIsSpace ' ' && pyIsSpace d then ' ' :: collapseA true (d :: ds)
           else ' ' :: collapseA false (d :: ds)) from rfl, pyIsSpace_sp, hd]
      rw [show (true && true) = true from rfl, if_pos rfl, collapseA_true_eq,
        List.dropWhile_cons, if_pos hd]
    · rw [show collapseA false (' ' :: d :: ds) =
          (if pyIsSpace ' ' && pyIsSpace d then ' ' :: collapseA true (d :: ds)
           else ' ' :: collapseA false (d :: ds)) from rfl, pyIsSpace_sp,
        List.dropWhile_cons, if_neg hd]
      rw [Bool.not_eq_true] at hd
      rw [hd]
      simp

/-- Trailing-whitespace removal, recursively. -/
def rstripSp : List Char → List Char
  | [] => []
  | c :: cs =>
    match rstripSp cs with
    | [] => if pyIsSpace c then [] else [c]
    | x :: xs => c :: x :: xs

theorem rstripSp_eq_reverse :
    ∀ (s : List Char), (s.reverse.dropWhile pyIsSpace).reverse = rstripSp s := by
  intro s
  induction s with
  | nil => rfl
  | cons c cs ih =>
    rw [List.reverse_cons, List.dropWhile_append]
    by_cases hemp : (cs.reverse.dropWhile pyIsSpace).isEmpty = true
    · rw [if_pos hemp]
      have h0 : rstripSp cs = [] := by
        rw [← ih]
        rw [List.isEmpty_iff] at hemp
        rw [hemp]
        rfl
      rw [show rstripSp (c :: cs) =
          (match rstripSp cs with
           | [] => if pyIsSpace c then [] else [c]
           | x :: xs => c :: x :: xs) from rfl, h0]
      by_cases hc : pyIsSpace c = true
      · rw [List.dropWhile_cons, if_pos hc]
        simp [hc]
      · rw [List.dropWhile_cons, if_neg hc]
        simp [hc]
    · rw [if_neg hemp]
      rw [List.isEmpty_iff] at hemp
      cases h1 : cs.reverse.dropWhile pyIsSpace with
      | nil => exact absurd h1 hemp
      | cons y ys =>
        have h2 : rstripSp cs = (y :: ys).reverse := by rw [← ih, h1]
        rw [List.reverse_append]
        cases h3 : (y :: ys).reverse with
        | nil => simp at h3
        | cons x xs =>
          rw [show rstripSp (c :: cs) =
              (match rstripSp cs with
               | [] => if pyIsSpace c then [] else [c]
               | x :: xs => c :: x :: xs) from rfl, h2, h3]
          simp

theorem pyStrip_eq_rstrip (s : List Char) :
    pyStrip s = rstripSp (s.dropWhile pyIsSpace) := by
  rw [pyStrip, rstripSp_eq_reverse]

theorem rstripSp_cons_nonspace {c : Char} (hc : pyIsSpace c = false) (X : List Char) :
    rstripSp (c :: X) = c :: rstripSp X := by
  rw [show rstripSp (c :: X) =
      (match rstripSp X with
       | [] => if pyIsSpace c then [] else [c]
       | x :: xs => c :: x :: xs) from rfl]
  cases h : rstripSp X with
  | nil => simp [hc]
  | cons x xs => rfl

theorem rstripSp_cons_of_ne {X : List Char} {x : Char} {xs : List Char}
    (h : rstripSp X = x :: xs) (c : Char) : rstripSp (c :: X) = c :: x :: xs := by
  rw [show rstripSp (c :: X) =
      (match rstripSp X with
       | [] => if pyIsSpace c then [] else [c]
       | x :: xs => c :: x :: xs) from rfl, h]

/-- All whitespace in the text is the plain space character. -/
def onlySp (s : List Char) : Prop := ∀ c ∈ s, pyIsSpace c = true → c = ' '

theorem onlySp_tail {c : Char} {cs : List Char} (h : onlySp (c :: cs)) : onlySp cs :=
  fun x hx hs => h x (List.mem_cons_of_mem c hx) hs

theorem splitSp_sp_only : ∀ {ds : List Char}, (∀ x ∈ ds, x = ' ') → splitSp ds = [] := by
  intro ds
  induction ds with
  | nil => intro _; rfl
  | cons d ds ih =>
    intro h
    rw [h d (List.mem_cons_self d ds), splitSp_sp_cons]
    exact ih (fun x hx => h x (List.mem_cons_of_mem d hx))

theorem splitSp_dropWhile_only :
    ∀ {ds : List Char}, onlySp ds → splitSp (ds.dropWhile pyIsSpace) = splitSp ds := by
  intro ds
  induction ds with
  | nil => intro _; rfl
  | cons d ds ih =>
    intro h
    by_cases hd : pyIsSpace d = true
    · have hd2 : d = ' ' := h d (List.mem_cons_self d ds) hd
      rw [List.dropWhile_cons, if_pos hd, ih (onlySp_tail h), hd2, splitSp_sp_cons]
    · rw [List.dropWhile_cons, if_neg hd]

theorem joinSp_cons_head (c : Char) (t : List Char) (ts : List (List Char)) :
    joinSp ((c :: t) :: ts) = c :: joinSp (t :: ts) := by
  cases ts with
  | nil => rfl
  | cons u us => rfl

theorem dropWhile_head_false {p : Char → Bool} :
    ∀ {l : List Char} {x : Char} {xs : List Char}, l.dropWhile p = x :: xs →
      p x = false := by
  intro l
  induction l with
  | nil => intro x xs h; simp at h
  | cons a as ih =>
    intro x xs h
    rw [List.dropWhile_cons] at h
    by_cases ha : p a = true
    · rw [if_pos ha] at h
      exact ih h
    · rw [if_neg ha] at h
      have hax : a = x := by
        have := congrArg List.head? h
        simpa using this
      rw [← hax]
      simpa using ha

theorem squash_rstrip :
    ∀ (n : ℕ) (s : List Char), s.length ≤ n → onlySp s →
      (s = [] ∨ ∃ c cs, s = c :: cs ∧ pyIsSpace c = false) →
      rstripSp (collapseA false s) = joinSp (splitSp s) := by
  intro n
  induction n with
  | zero =>
    intro s hlen _ _
    have hs : s = [] := List.length_eq_zero.1 (Nat.le_zero.1 hlen)
    subst hs
    rfl
  | succ n ih =>
    intro s hlen honly hhead
    rcases hhead with rfl | ⟨c, cs, rfl, hc⟩
    · rfl
    have hcsp : c ≠ ' ' := by
      intro h
      rw [h, pyIsSpace_sp] at hc
      simp at hc
    cases cs with
    | nil =>
      rw [show collapseA false [c] = [c] from rfl, splitSp_single hcsp,
        rstripSp_cons_nonspace hc]
      rfl
    | cons d ds =>
      by_cases hd : pyIsSpace d = true
      · have hd2 : d = ' ' := honly d (by simp) hd
        subst hd2
        rw [collapseA_head_nonspace hc, collapseA_sp_cons]
        cases hu : ds.dropWhile pyIsSpace with
        | nil =>
          have hall : ∀ x ∈ ds, x = ' ' := by
            intro x hx
            have hxs : pyIsSpace x = true := (List.dropWhile_eq_nil_iff.1 hu) x hx
            exact honly x (by simp [hx]) hxs
          have h2 : rstripSp [' '] = [] := by decide
          rw [show collapseA false [] = [] from rfl,
            show rstripSp (c :: [' ']) =
              (match rstripSp [' '] with
               | [] => if pyIsSpace c then [] else [c]
               | x :: xs => c :: x :: xs) from rfl, h2]
          rw [if_neg (by rw [hc]; exact Bool.false_ne_true)]
          rw [splitSp_cons_sp hcsp, splitSp_sp_only hall]
          rfl
        | cons e es =>
          have he : pyIsSpace e = false := dropWhile_head_false hu
          have hesp : e ≠ ' ' := by
            intro h
            rw [h, pyIsSpace_sp] at he
            simp at he
          have hlenu : (e :: es).length ≤ n := by
            have h4 : (ds.dropWhile pyIsSpace).length ≤ ds.length :=
            (List.dropWhile_sublist pyIsSpace).length_le
            rw [hu] at h4
            simp only [List.length_cons] at hlen h4 ⊢
            omega
          have honlyds : onlySp ds := by
            intro x hx hxs
            exact honly x (by simp [hx]) hxs
          have honlyu : onlySp (e :: es) := by
            intro x hx hxs
            have hxds : x ∈ ds :=
              List.Sublist.mem (hu ▸ hx) (List.dropWhile_sublist pyIsSpace)
            exact honlyds x hxds hxs
          have hIH := ih (e :: es) hlenu honlyu (Or.inr ⟨e, es, rfl, he⟩)
          rcases splitSp_head es hesp with ⟨t0, ts0, hsplit⟩
          rw [hsplit, joinSp_cons_head] at hIH
          have h6 := rstripSp_cons_of_ne hIH ' '
          have h7 := rstripSp_cons_of_ne h6 c
          rw [h7, splitSp_cons_sp hcsp]
          have h8 : splitSp ds = (e :: t0) :: ts0 := by
            rw [← splitSp_dropWhile_only honlyds, hu, hsplit]
          rw [h8, show joinSp ([c] :: (e :: t0) :: ts0) =
            [c] ++ ' ' :: joinSp ((e :: t0) :: ts0) from rfl, joinSp_cons_head]
          rfl
      · rw [Bool.not_eq_true] at hd
        have hdsp : d ≠ ' ' := by
          intro h
          rw [h, pyIsSpace_sp] at hd
          simp at hd
        have hIH := ih (d :: ds) (by simp only [List.length_cons] at hlen ⊢; omega)
          (onlySp_tail honly) (Or.inr ⟨d, ds, rfl, hd⟩)
        rcases splitSp_head ds hdsp with ⟨t0, ts0, hsplit⟩
        rw [hsplit, joinSp_cons_head] at hIH
        rw [collapseA_head_nonspace hc]
        rw [rstripSp_cons_of_ne hIH c]
        rw [splitSp_cons_merge hcsp hdsp hsplit, joinSp_cons_head, joinSp_cons_head]

theorem squash_eq {s : List Char} (honly : onlySp s) :
    pyStrip (collapseA false s) = joinSp (splitSp s) := by
  rw [pyStrip_eq_rstrip]
  cases s with
  | nil => rfl
  | cons c cs =>
    by_cases hc : pyIsSpace c = true
    · have hc2 : c = ' ' := honly c (List.mem_cons_self c cs) hc
      subst hc2
      rw [collapseA_sp_cons]
      cases hu : cs.dropWhile pyIsSpace with
      | nil =>
        rw [show collapseA false [] = [] from rfl]
        rw [show List.dropWhile pyIsSpace [' '] = [] from by decide]
        have hall : ∀ x ∈ cs, x = ' ' := by
          intro x hx
          have hxs : pyIsSpace x = true := (List.dropWhile_eq_nil_iff.1 hu) x hx
          exact honly x (by simp [hx]) hxs
        rw [splitSp_sp_cons, splitSp_sp_only hall]
        rfl
      | cons e es =>
        have he : pyIsSpace e = false := dropWhile_head_false hu
        have honlycs : onlySp cs := onlySp_tail honly
        have honlyu : onlySp (e :: es) := by
          intro x hx hxs
          exact honlycs x (List.Sublist.mem (hu ▸ hx) (List.dropWhile_sublist pyIsSpace)) hxs
        rw [collapseA_head_nonspace he, List.dropWhile_cons, if_pos pyIsSpace_sp,
          List.dropWhile_cons, if_neg (by rw [he]; exact Bool.false_ne_true)]
        rw [← collapseA_head_nonspace he]
        rw [squash_rstrip (e :: es).length (e :: es) le_rfl honlyu
          (Or.inr ⟨e, es, rfl, he⟩)]
        rw [splitSp_sp_cons, ← splitSp_dropWhile_only honlycs, hu]
    · rw [Bool.not_eq_true] at hc
      rw [collapseA_head_nonspace hc, List.dropWhile_cons,
        if_neg (by rw [hc]; exact Bool.false_ne_true), ← collapseA_head_nonspace hc]
      exact squash_rstrip (c :: cs).length (c :: cs) le_rfl honly
        (Or.inr ⟨c, cs, rfl, hc⟩)

/-! ### How one contraction rewrite splits a token -/

theorem splitSp_append_tok :
    ∀ (A : List Char), A ≠ [] → (∀ c ∈ A, c ≠ ' ') →
      ∀ {x : Char} {B t0 : List Char} {ts : List (List Char)}, x ≠ ' ' →
        splitSp (x :: B) = t0 :: ts → splitSp (A ++ x :: B) = (A ++ t0) :: ts := by
  intro A
  induction A with
  | nil => intro h; exact absurd rfl h
  | cons a A ih =>
    intro _ hfree x B t0 ts hx h
    have ha : a ≠ ' ' := hfree a (List.mem_cons_self a A)
    cases A with
    | nil =>
      rw [List.cons_append, List.nil_append, splitSp_cons_merge ha hx h]
      rfl
    | cons b A2 =>
      have hb : b ≠ ' ' := hfree b (List.mem_cons_of_mem a (List.mem_cons_self b A2))
      have hrec := ih (by simp) (fun c hc => hfree c (List.mem_cons_of_mem a hc)) hx h
      simp only [List.cons_append] at hrec ⊢
      rw [splitSp_cons_merge ha hb hrec]

theorem occursB_split {q : List Char} :
    ∀ (A B : List Char), occursB q (A ++ B) = true →
      (∃ A1 A2, A = A1 ++ A2 ∧ A2 ≠ [] ∧ q.isPrefixOf (A2 ++ B) = true) ∨
        occursB q B = true := by
  intro A
  induction A with
  | nil => intro B h; exact Or.inr h
  | cons a A2 ih =>
    intro B h
    rw [List.cons_append, occursB_cons, Bool.or_eq_true] at h
    rcases h with h | h
    · exact Or.inl ⟨[], a :: A2, rfl, by simp, by rw [List.cons_append]; exact h⟩
    · rcases ih B h with ⟨A1, A3, heq, hne, hpre⟩ | h2
      · exact Or.inl ⟨a :: A1, A3, by rw [heq]; rfl, hne, hpre⟩
      · exact Or.inr h2

/-- No occurrence of the pattern after the first position. -/
def TOnly (pat t : List Char) : Prop := occursB pat (t.drop 1) = false

/-- The pattern does not overlap a shifted copy of itself. -/
def NSO (pat : List Char) : Prop :=
  ∀ j < pat.length, 0 < j → (pat.drop j).isPrefixOf pat = false

theorem contr_tokens {pat : List Char} (hsp : ' ' ∉ pat) (hnso : NSO pat)
    (h2 : 2 ≤ pat.length) :
    ∀ (n : ℕ) (w : List Char), w.length ≤ n → (∀ c ∈ w, c ≠ ' ') →
      (∀ t ∈ splitSp (subst pat (' ' :: pat) w),
          (∃ pre post, w = pre ++ t ++ post) ∧ TOnly pat t) ∧
      (pat.isPrefixOf w = false →
        w = [] ∨ ∃ t0 ts rest, splitSp (subst pat (' ' :: pat) w) = t0 :: ts ∧
          w = t0 ++ rest ∧ occursB pat t0 = false) := by
  obtain ⟨p, ps, rfl⟩ : ∃ p ps, pat = p :: ps := by
    cases pat with
    | nil => simp at h2
    | cons p ps => exact ⟨p, ps, rfl⟩
  intro n
  induction n with
  | zero =>
    intro w hlen _
    have hw : w = [] := List.length_eq_zero.1 (Nat.le_zero.1 hlen)
    subst hw
    exact ⟨by intro t ht; simp [subst, substSkip_nil, splitSp] at ht, fun _ => Or.inl rfl⟩
  | succ n ih =>
    intro w hlen hfree
    by_cases hm : (p :: ps).isPrefixOf w = true
    · -- the pattern matches at the start of w
      have hweq : (p :: ps) ++ w.drop (p :: ps).length = w := append_drop_of_isPrefixOf hm
      have hsubst : subst (p :: ps) (' ' :: p :: ps) w =
          ' ' :: ((p :: ps) ++ subst (p :: ps) (' ' :: p :: ps)
            (w.drop (p :: ps).length)) := by
        rw [subst_match _ (by simp) hm]
        rfl
      have hwfree : ∀ c ∈ w.drop (p :: ps).length, c ≠ ' ' := by
        intro c hc
        exact hfree c (by rw [← hweq]; exact List.mem_append_right _ hc)
      have hwlen : (w.drop (p :: ps).length).length ≤ n := by
        have := congrArg List.length hweq
        rw [List.length_append] at this
        simp only [List.length_cons] at this hlen ⊢
        omega
      have hpfree : ∀ c ∈ p :: ps, c ≠ ' ' := by
        intro c hc h
        exact hsp (h ▸ hc)
      have hTpat : TOnly (p :: ps) (p :: ps) := by
        show occursB (p :: ps) ((p :: ps).drop 1) = false
        exact occursB_short (by simp)
      have hihw := ih (w.drop (p :: ps).length) hwlen hwfree
      constructor
      · intro t ht
        rw [hsubst, splitSp_sp_cons] at ht
        by_cases hm2 : (p :: ps).isPrefixOf (w.drop (p :: ps).length) = true
        · -- the remainder also starts with a match: the pat token stands alone
          have hsubst2 : ∃ Y, subst (p :: ps) (' ' :: p :: ps)
              (w.drop (p :: ps).length) = ' ' :: Y := by
            rw [subst_match _ (by simp) hm2]
            exact ⟨_, rfl⟩
          rcases hsubst2 with ⟨Y, hY⟩
          rw [hY, splitSp_append_sp] at ht
          rw [splitSp_sp_free hpfree (by simp)] at ht
          have ht2 : t = p :: ps ∨ t ∈ splitSp Y := by simpa using ht
          rcases ht2 with h | h
          · subst h
            refine ⟨⟨[], w.drop (p :: ps).length, ?_⟩, hTpat⟩
            simpa using hweq.symm
          · have h3 := (hihw.1) t (by rw [hY, splitSp_sp_cons]; exact h)
            rcases h3.1 with ⟨pre, post, hpp⟩
            refine ⟨⟨(p :: ps) ++ pre, post, ?_⟩, h3.2⟩
            conv_lhs => rw [← hweq]
            rw [hpp]
            simp
        · -- no match at the start of the remainder
          rcases (hihw.2) (Bool.eq_false_iff.mpr hm2) with hnil | ⟨t0, ts, rest, hsp2, hw2, hocc⟩
          · -- remainder empty
            rw [hnil] at ht
            rw [show subst (p :: ps) (' ' :: p :: ps) [] = [] from rfl,
              List.append_nil, splitSp_sp_free hpfree (by simp)] at ht
            have ht2 : t = p :: ps ∨ t ∈ ([] : List (List Char)) := by simpa using ht
            rcases ht2 with h | h
            · subst h
              refine ⟨⟨[], [], ?_⟩, hTpat⟩
              rw [hnil, List.append_nil] at hweq
              simpa using hweq.symm
            · simp at h
          · -- merge the pat token with the first token of the remainder
            cases hw3 : w.drop (p :: ps).length with
            | nil =>
              rw [hw3] at hsp2
              rw [show subst (p :: ps) (' ' :: p :: ps) [] = [] from rfl] at hsp2
              simp [splitSp] at hsp2
            | cons d ds =>
              have hd : d ≠ ' ' := by
                have := hwfree d (by rw [hw3]; exact List.mem_cons_self d ds)
                exact this
              have hdm : ∃ Z, subst (p :: ps) (' ' :: p :: ps) (d :: ds) = d :: Z := by
                rw [subst, substSkip_zero_nomatch _ _ (by rw [hw3] at hm2; exact hm2)]
                exact ⟨_, rfl⟩
              rcases hdm with ⟨Z, hZ⟩
              rw [hw3, hZ] at ht hsp2
              rw [splitSp_append_tok (p :: ps) (by simp) hpfree hd hsp2] at ht
              rcases List.mem_cons.1 ht with h | h
              · -- the merged token (p :: ps) ++ t0
                subst h
                refine ⟨⟨[], rest, ?_⟩, ?_⟩
                · conv_lhs => rw [← hweq]
                  rw [hw2]
                  simp
                · show occursB (p :: ps) (((p :: ps) ++ t0).drop 1) = false
                  rw [show ((p :: ps) ++ t0).drop 1 = ps ++ t0 from rfl]
                  by_contra hx
                  rw [Bool.not_eq_false] at hx
                  rcases occursB_split ps t0 hx with ⟨A1, A2, hA, hAne, hApre⟩ | hip
                  · rcases isPrefixOf_append_cases hApre with hcase | hcase
                    · have hlenle := length_le_of_isPrefixOf hcase
                      have : (p :: ps).length ≤ A2.length := hlenle
                      have h5 := congrArg List.length hA
                      rw [List.length_append] at h5
                      simp only [List.length_cons] at this ⊢
                      omega
                    · have hdrop : (p :: ps).drop (A1.length + 1) = A2 := by
                        rw [show (p :: ps).drop (A1.length + 1) =
                          ps.drop A1.length from rfl, hA, List.drop_left]
                      have := hnso (A1.length + 1)
                        (by simp only [List.length_cons]
                            have h5 := congrArg List.length hA
                            rw [List.length_append] at h5
                            have : A2.length ≠ 0 := fun hz =>
                              hAne (List.length_eq_zero.1 hz)
                            omega)
                        (by omega)
                      rw [hdrop] at this
                      rw [this] at hcase
                      exact Bool.false_ne_true hcase
                  · rw [hip] at hocc
                    exact absurd hocc (by decide)
              · have h3 := (hihw.1) t (by rw [hw3, hZ, hsp2]; exact List.mem_cons_of_mem _ h)
                rcases h3.1 with ⟨pre, post, hpp⟩
                refine ⟨⟨(p :: ps) ++ pre, post, ?_⟩, h3.2⟩
                conv_lhs => rw [← hweq]
                rw [hpp]
                simp
      · intro hfalse
        rw [hm] at hfalse
        simp at hfalse
    · -- no match at the start of w
      rw [Bool.not_eq_true] at hm
      cases w with
      | nil => exact ⟨by intro t ht; simp [subst, substSkip_nil, splitSp] at ht,
          fun _ => Or.inl rfl⟩
      | cons c cs =>
        have hc : c ≠ ' ' := hfree c (List.mem_cons_self c cs)
        have hcfree : ∀ x ∈ cs, x ≠ ' ' := fun x hx => hfree x (List.mem_cons_of_mem c hx)
        have hclen : cs.length ≤ n := by
          simp only [List.length_cons] at hlen
          omega
        have hsubst : subst (p :: ps) (' ' :: p :: ps) (c :: cs) =
            c :: subst (p :: ps) (' ' :: p :: ps) cs := by
          rw [subst, substSkip_zero_nomatch _ _ (by rw [hm]; exact Bool.false_ne_true)]
          rfl
        have hihc := ih cs hclen hcfree
        have hoccc : occursB (p :: ps) [c] = false := by
          refine occursB_short ?_
          simp only [List.length_cons, List.length_nil]
          simp only [List.length_cons] at h2
          omega
        by_cases hm2 : (p :: ps).isPrefixOf cs = true
        · -- the tail starts with a match: [c] stands alone
          have hsubst2 : ∃ Y, subst (p :: ps) (' ' :: p :: ps) cs = ' ' :: Y := by
            rw [subst_match _ (by simp) hm2]
            exact ⟨_, rfl⟩
          rcases hsubst2 with ⟨Y, hY⟩
          constructor
          · intro t ht
            rw [hsubst, hY, splitSp_cons_sp hc] at ht
            rcases List.mem_cons.1 ht with h | h
            · subst h
              refine ⟨⟨[], cs, rfl⟩, ?_⟩
              show occursB (p :: ps) ([c].drop 1) = false
              rfl
            · have h3 := (hihc.1) t (by rw [hY, splitSp_sp_cons]; exact h)
              rcases h3.1 with ⟨pre, post, hpp⟩
              exact ⟨⟨c :: pre, post, by rw [hpp]; rfl⟩, h3.2⟩
          · intro _
            refine Or.inr ⟨[c], splitSp Y, cs, ?_, rfl, hoccc⟩
            rw [hsubst, hY, splitSp_cons_sp hc]
        · -- no match in the tail either
          rcases (hihc.2) (Bool.eq_false_iff.mpr hm2) with hnil | ⟨t0, ts, rest, hsp2, hw2, hocc⟩
          · -- cs = []
            subst hnil
            constructor
            · intro t ht
              rw [hsubst, show subst (p :: ps) (' ' :: p :: ps) [] = [] from rfl,
                splitSp_single hc] at ht
              rcases List.mem_cons.1 ht with h | h
              · subst h
                refine ⟨⟨[], [], rfl⟩, ?_⟩
                show occursB (p :: ps) ([c].drop 1) = false
                rfl
              · simp at h
            · intro _
              refine Or.inr ⟨[c], [], [], ?_, rfl, hoccc⟩
              rw [hsubst, show subst (p :: ps) (' ' :: p :: ps) [] = [] from rfl,
                splitSp_single hc]
          · -- merge c with the first token of the rewritten tail
            cases hw3 : cs with
            | nil =>
              rw [hw3] at hsp2
              rw [show subst (p :: ps) (' ' :: p :: ps) [] = [] from rfl] at hsp2
              simp [splitSp] at hsp2
            | cons d ds =>
              have hd : d ≠ ' ' := by
                have := hcfree d (by rw [hw3]; exact List.mem_cons_self d ds)
                exact this
              have hdm : ∃ Z, subst (p :: ps) (' ' :: p :: ps) (d :: ds) = d :: Z := by
                rw [subst, substSkip_zero_nomatch _ _ (by rw [hw3] at hm2; exact hm2)]
                exact ⟨_, rfl⟩
              rcases hdm with ⟨Z, hZ⟩
              rw [hw3] at hsubst hsp2 hw2
              rw [hZ] at hsp2
              have hmerge : splitSp (c :: d :: Z) = (c :: t0) :: ts :=
                splitSp_cons_merge hc hd hsp2
              have hocc2 : occursB (p :: ps) (c :: t0) = false := by
                rw [occursB_cons, Bool.or_eq_false_iff]
                refine ⟨?_, hocc⟩
                by_contra hx
                rw [Bool.not_eq_false] at hx
                have : (p :: ps).isPrefixOf ((c :: t0) ++ rest) = true :=
                  isPrefixOf_append_left rest hx
                rw [show (c :: t0) ++ rest = c :: (t0 ++ rest) from rfl, ← hw2] at this
                have hm4 := hm
                rw [hw3] at hm4
                rw [hm4] at this
                exact Bool.false_ne_true this
              constructor
              · intro t ht
                rw [hsubst, hZ, hmerge] at ht
                rcases List.mem_cons.1 ht with h | h
                · subst h
                  refine ⟨⟨[], rest, by rw [hw2]; rfl⟩, ?_⟩
                  show occursB (p :: ps) ((c :: t0).drop 1) = false
                  rw [List.drop_one]
                  have := occursB_tail_of_false hocc2
                  simpa using this
                · have h3 := (hihc.1) t
                    (by rw [hw3, hZ, hsp2]; exact List.mem_cons_of_mem _ h)
                  rcases h3.1 with ⟨pre, post, hpp⟩
                  refine ⟨⟨c :: pre, post, ?_⟩, h3.2⟩
                  rw [← hw3, hpp]
                  rfl
              · intro _
                refine Or.inr ⟨c :: t0, ts, rest, ?_, by rw [hw2]; rfl, hocc2⟩
                rw [hsubst, hZ, hmerge]

/-! ### How one padding rewrite splits a token -/

theorem pad_tokens {m : Char} (hmsp : m ≠ ' ') {core : List Char} (hcore : core ≠ [])
    (hcoresp : ∀ c ∈ core, c ≠ ' ') :
    ∀ (n : ℕ) (w : List Char), w.length ≤ n → (∀ c ∈ w, c ≠ ' ') →
      (∀ t ∈ splitSp (subst [m] (' ' :: core ++ [' ']) w),
          t = core ∨ (m ∉ t ∧ ∃ pre post, w = pre ++ t ++ post)) ∧
      (∀ c0, w.head? = some c0 → c0 ≠ m →
        ∃ t0 ts rest, splitSp (subst [m] (' ' :: core ++ [' ']) w) = t0 :: ts ∧
          w = t0 ++ rest ∧ m ∉ t0) := by
  intro n
  induction n with
  | zero =>
    intro w hlen _
    have hw : w = [] := List.length_eq_zero.1 (Nat.le_zero.1 hlen)
    subst hw
    constructor
    · intro t ht
      simp [subst, substSkip_nil, splitSp] at ht
    · intro c0 hc0
      simp at hc0
  | succ n ih =>
    intro w hlen hfree
    cases w with
    | nil =>
      constructor
      · intro t ht
        simp [subst, substSkip_nil, splitSp] at ht
      · intro c0 hc0
        simp at hc0
    | cons c cs =>
      have hc : c ≠ ' ' := hfree c (List.mem_cons_self c cs)
      have hcfree : ∀ x ∈ cs, x ≠ ' ' := fun x hx => hfree x (List.mem_cons_of_mem c hx)
      have hclen : cs.length ≤ n := by
        simp only [List.length_cons] at hlen
        omega
      have hihc := ih cs hclen hcfree
      by_cases hcm : c = m
      · -- a match: emit the padded core and continue
        subst hcm
        have hmatch : ([c] : List Char).isPrefixOf (c :: cs) = true := by
          rw [isPrefixOf_cons₂]
          simp [nil_isPrefixOf]
        have hsubst : subst [c] (' ' :: core ++ [' ']) (c :: cs) =
            ' ' :: (core ++ ' ' :: subst [c] (' ' :: core ++ [' ']) cs) := by
          rw [subst, substSkip_zero_match _ _ hmatch]
          simp only [List.length_singleton, Nat.sub_self]
          rw [show substSkip [c] (' ' :: core ++ [' ']) 0 cs =
            subst [c] (' ' :: core ++ [' ']) cs from rfl]
          simp
        constructor
        · intro t ht
          rw [hsubst, splitSp_sp_cons, splitSp_append_sp,
            splitSp_sp_free hcoresp hcore] at ht
          have ht2 : t = core ∨ t ∈ splitSp (subst [c] (' ' :: core ++ [' ']) cs) := by
            simpa using ht
          rcases ht2 with h | h
          · exact Or.inl h
          · rcases hihc.1 t h with h3 | ⟨h3, pre, post, hpp⟩
            · exact Or.inl h3
            · exact Or.inr ⟨h3, c :: pre, post, by rw [hpp]; rfl⟩
        · intro c0 hc0 hne
          rw [List.head?_cons, Option.some_inj] at hc0
          exact absurd hc0.symm hne
      · -- no match at this character
        have hnomatch : ¬ ([m] : List Char).isPrefixOf (c :: cs) = true := by
          rw [isPrefixOf_cons₂]
          simp only [nil_isPrefixOf, Bool.and_true, beq_iff_eq]
          intro h
          exact hcm h.symm
        have hsubst : subst [m] (' ' :: core ++ [' ']) (c :: cs) =
            c :: subst [m] (' ' :: core ++ [' ']) cs := by
          rw [subst, substSkip_zero_nomatch _ _ hnomatch]
          rfl
        cases hcs : cs with
        | nil =>
          constructor
          · intro t ht
            rw [hcs] at hsubst
            rw [hsubst, show subst [m] (' ' :: core ++ [' ']) [] = [] from rfl,
              splitSp_single hc] at ht
            have ht2 : t = [c] := by simpa using ht
            subst ht2
            refine Or.inr ⟨?_, [], [], rfl⟩
            intro hmem
            rcases List.mem_singleton.1 hmem with h
            exact hcm h.symm
          · intro c0 hc0 hne
            rw [hcs] at hsubst
            rw [hsubst, show subst [m] (' ' :: core ++ [' ']) [] = [] from rfl,
              splitSp_single hc]
            exact ⟨[c], [], [], rfl, rfl, by
              intro hmem
              rcases List.mem_singleton.1 hmem with h
              exact hcm h.symm⟩
        | cons d ds =>
          by_cases hdm : d = m
          · -- the tail starts with a match, [c] stands alone
            subst hdm
            have hmatch2 : ([d] : List Char).isPrefixOf (d :: ds) = true := by
              rw [isPrefixOf_cons₂]
              simp [nil_isPrefixOf]
            have hsubst2 : subst [d] (' ' :: core ++ [' ']) (d :: ds) =
                ' ' :: (core ++ ' ' :: subst [d] (' ' :: core ++ [' ']) ds) := by
              rw [subst, substSkip_zero_match _ _ hmatch2]
              simp only [List.length_singleton, Nat.sub_self]
              rw [show substSkip [d] (' ' :: core ++ [' ']) 0 ds =
                subst [d] (' ' :: core ++ [' ']) ds from rfl]
              simp
            rw [hcs] at hsubst
            constructor
            · intro t ht
              rw [hsubst, hsubst2, splitSp_cons_sp hc] at ht
              rcases List.mem_cons.1 ht with h | h
              · subst h
                refine Or.inr ⟨?_, [], cs, by rw [hcs]; rfl⟩
                intro hmem
                rcases List.mem_singleton.1 hmem with h
                exact hcm h.symm
              · have h2 : t ∈ splitSp (subst [d] (' ' :: core ++ [' ']) (d :: ds)) := by
                  rw [hsubst2, splitSp_sp_cons]
                  exact h
                rw [← hcs] at h2
                rcases hihc.1 t h2 with h3 | ⟨h3, pre, post, hpp⟩
                · exact Or.inl h3
                · exact Or.inr ⟨h3, c :: pre, post, by rw [← hcs, hpp]; rfl⟩
            · intro c0 hc0 hne
              refine ⟨[c], splitSp (core ++ ' ' :: subst [d] (' ' :: core ++ [' ']) ds),
                cs, ?_, by rw [hcs]; rfl, ?_⟩
              · rw [hsubst, hsubst2, splitSp_cons_sp hc]
              · intro hmem
                rcases List.mem_singleton.1 hmem with h
                exact hcm h.symm
          · -- no match in the tail head: merge
            have hihb := hihc.2 d (by rw [hcs]; rfl) hdm
            rcases hihb with ⟨t0, ts, rest, hsp2, hw2, hm0⟩
            have hnomatch2 : ¬ ([m] : List Char).isPrefixOf (d :: ds) = true := by
              rw [isPrefixOf_cons₂]
              simp only [nil_isPrefixOf, Bool.and_true, beq_iff_eq]
              intro h
              exact hdm h.symm
            have hd : d ≠ ' ' := by
              have := hcfree d (by rw [hcs]; exact List.mem_cons_self d ds)
              exact this
            have hdm2 : ∃ Z, subst [m] (' ' :: core ++ [' ']) (d :: ds) = d :: Z := by
              rw [subst, substSkip_zero_nomatch _ _ hnomatch2]
              exact ⟨_, rfl⟩
            rcases hdm2 with ⟨Z, hZ⟩
            rw [hcs] at hsubst hsp2 hw2
            rw [hZ] at hsp2
            have hmerge : splitSp (c :: d :: Z) = (c :: t0) :: ts :=
              splitSp_cons_merge hc hd hsp2
            have hm02 : m ∉ c :: t0 := by
              intro hmem
              rcases List.mem_cons.1 hmem with h | h
              · exact hcm h.symm
              · exact hm0 h
            constructor
            · intro t ht
              rw [hsubst, hZ, hmerge] at ht
              rcases List.mem_cons.1 ht with h | h
              · subst h
                exact Or.inr ⟨hm02, [], rest, by rw [hw2]; rfl⟩
              · have h3 := hihc.1 t (by rw [hcs, hZ, hsp2]; exact List.mem_cons_of_mem _ h)
                rcases h3 with h3 | ⟨h3, pre, post, hpp⟩
                · exact Or.inl h3
                · refine Or.inr ⟨h3, c :: pre, post, ?_⟩
                  rw [← hcs, hpp]
                  rfl
            · intro c0 hc0 hne
              refine ⟨c :: t0, ts, rest, ?_, by rw [hw2]; rfl, hm02⟩
              rw [hsubst, hZ, hmerge]

/-! ### Characters of tokens and of rewrite outputs -/

theorem splitSp_chars :
    ∀ (u : List Char), ∀ t ∈ splitSp u, ∀ c ∈ t, c ∈ u := by
  intro u
  induction u with
  | nil => intro t ht; simp [splitSp] at ht
  | cons a as ih =>
    intro t ht c hc
    by_cases ha : a = ' '
    · subst ha
      rw [splitSp_sp_cons] at ht
      exact List.mem_cons_of_mem _ (ih t ht c hc)
    · cases as with
      | nil =>
        rw [splitSp_single ha] at ht
        simp only [List.mem_singleton] at ht
        subst ht
        simpa using hc
      | cons d ds =>
        by_cases hd : d = ' '
        · subst hd
          rw [splitSp_cons_sp ha] at ht
          rcases List.mem_cons.1 ht with h | h
          · subst h
            simp only [List.mem_singleton] at hc
            exact hc ▸ List.mem_cons_self a _
          · refine List.mem_cons_of_mem _ (ih t ?_ c hc)
            rw [splitSp_sp_cons]
            exact h
        · rcases splitSp_head ds hd with ⟨t0, ts0, h0⟩
          rw [splitSp_cons_merge ha hd h0] at ht
          rcases List.mem_cons.1 ht with h | h
          · subst h
            rcases List.mem_cons.1 hc with h | h
            · exact h ▸ List.mem_cons_self a _
            · exact List.mem_cons_of_mem _
                (ih (d :: t0) (by rw [h0]; exact List.mem_cons_self _ _) c h)
          · exact List.mem_cons_of_mem _
              (ih t (by rw [h0]; exact List.mem_cons_of_mem _ h) c hc)

theorem substSkip_mem {pat rep : List Char} :
    ∀ (n k : ℕ) (s : List Char), s.length ≤ n →
      ∀ c ∈ substSkip pat rep k s, c ∈ s ∨ c ∈ rep := by
  intro n
  induction n with
  | zero =>
    intro k s hlen c hc
    have hs : s = [] := List.length_eq_zero.1 (Nat.le_zero.1 hlen)
    subst hs
    rw [substSkip_nil] at hc
    simp at hc
  | succ n ih =>
    intro k s hlen c hc
    cases s with
    | nil => rw [substSkip_nil] at hc; simp at hc
    | cons a as =>
      have hlen2 : as.length ≤ n := by simp only [List.length_cons] at hlen; omega
      cases k with
      | succ k =>
        rw [substSkip_succ] at hc
        rcases ih k as hlen2 c hc with h | h
        · exact Or.inl (List.mem_cons_of_mem a h)
        · exact Or.inr h
      | zero =>
        by_cases hm : pat.isPrefixOf (a :: as) = true
        · rw [substSkip_zero_match pat rep hm, List.mem_append] at hc
          rcases hc with h | h
          · exact Or.inr h
          · rcases ih (pat.length - 1) as hlen2 c h with h2 | h2
            · exact Or.inl (List.mem_cons_of_mem a h2)
            · exact Or.inr h2
        · rw [substSkip_zero_nomatch pat rep hm] at hc
          rcases List.mem_cons.1 hc with h | h
          · exact Or.inl (h ▸ List.mem_cons_self a as)
          · rcases ih 0 as hlen2 c h with h2 | h2
            · exact Or.inl (List.mem_cons_of_mem a h2)
            · exact Or.inr h2

theorem subst_mem {pat rep s : List Char} {c : Char} (hc : c ∈ subst pat rep s) :
    c ∈ s ∨ c ∈ rep :=
  substSkip_mem s.length 0 s le_rfl c hc

/-! ### The whitelist avoids whitespace -/

theorem pyIsSpace_false_of_ge {c : Char} (h : 33 ≤ c.toNat) : pyIsSpace c = false := by
  have hne : (c == ' ') = false := by
    rw [beq_eq_false_iff_ne]
    intro he
    rw [he] at h
    exact absurd h (by decide)
  have h13 : decide (c.toNat ≤ 13) = false := by
    rw [decide_eq_false_iff_not]
    omega
  simp [pyIsSpace, hne, h13]

theorem whitelisted_ge {c : Char} (h : whitelisted c = true) : 33 ≤ c.toNat := by
  by_contra hlt
  push_neg at hlt
  have e1 : decide (65 ≤ c.toNat) = false := by rw [decide_eq_false_iff_not]; omega
  have e2 : decide (97 ≤ c.toNat) = false := by rw [decide_eq_false_iff_not]; omega
  have e3 : decide (48 ≤ c.toNat) = false := by rw [decide_eq_false_iff_not]; omega
  have e4 : (c == '(') = false := by
    rw [beq_eq_false_iff_ne]; intro he; rw [he] at hlt; exact absurd hlt (by decide)
  have e5 : (c == ')') = false := by
    rw [beq_eq_false_iff_ne]; intro he; rw [he] at hlt; exact absurd hlt (by decide)
  have e6 : (c == ',') = false := by
    rw [beq_eq_false_iff_ne]; intro he; rw [he] at hlt; exact absurd hlt (by decide)
  have e7 : (c == '!') = false := by
    rw [beq_eq_false_iff_ne]; intro he; rw [he] at hlt; exact absurd hlt (by decide)
  have e8 : (c == '?') = false := by
    rw [beq_eq_false_iff_ne]; intro he; rw [he] at hlt; exact absurd hlt (by decide)
  have e9 : (c == apos) = false := by
    rw [beq_eq_false_iff_ne]; intro he; rw [he] at hlt; exact absurd hlt (by decide)
  have e10 : (c == backquote) = false := by
    rw [beq_eq_false_iff_ne]; intro he; rw [he] at hlt; exact absurd hlt (by decide)
  simp only [whitelisted, e1, e2, e3, e4, e5, e6, e7, e8, e9, e10, Bool.false_and,
    Bool.or_self, Bool.or_false, Bool.false_or] at h
  exact Bool.false_ne_true h

theorem whitelisted_not_space {c : Char} (h : whitelisted c = true) : pyIsSpace c = false :=
  pyIsSpace_false_of_ge (whitelisted_ge h)

theorem whitelisted_ne_sp {c : Char} (h : whitelisted c = true) : c ≠ ' ' := by
  intro he
  subst he
  exact absurd h (by decide)

theorem occursB_single_not_mem {m : Char} :
    ∀ {t : List Char}, m ∉ t → occursB [m] t = false := by
  intro t
  induction t with
  | nil => intro _; rfl
  | cons c cs ih =>
    intro h
    rw [occursB_cons, Bool.or_eq_false_iff]
    refine ⟨?_, ih (fun hm => h (List.mem_cons_of_mem c hm))⟩
    rw [isPrefixOf_cons₂]
    simp only [nil_isPrefixOf, Bool.and_true]
    rw [beq_eq_false_iff_ne]
    intro he
    exact h (by rw [he]; exact List.mem_cons_self c cs)

theorem TOnly_of_infix {p : List Char} (hp : p ≠ []) {t t2 pre post : List Char}
    (h : TOnly p t) (he : t = pre ++ t2 ++ post) : TOnly p t2 := by
  cases t2 with
  | nil =>
    show occursB p (([] : List Char).drop 1) = false
    cases p with
    | nil => exact absurd rfl hp
    | cons q qs => rfl
  | cons a as =>
    show occursB p ((a :: as).drop 1) = false
    by_contra hx
    rw [Bool.not_eq_false] at hx
    have hx2 : occursB p (t.drop 1) = true := by
      cases pre with
      | nil =>
        have ht : t.drop 1 = as ++ post := by rw [he]; rfl
        rw [ht]
        exact occursB_append_left post hx
      | cons b bs =>
        have ht : t.drop 1 = bs ++ (a :: as) ++ post := by rw [he]; rfl
        rw [ht]
        refine occursB_embed bs post ?_
        rw [occursB_cons, Bool.or_eq_true]
        exact Or.inr hx
    rw [h] at hx2
    exact Bool.false_ne_true hx2

/-! ### The rewrite pipeline split into named pieces -/

/-- The first rewrite: every character outside the whitelist class becomes a
space. -/
def toWhitelist (c : Char) : Char := if whitelisted c then c else ' '

/-- The eleven literal rewrites of clean_str that follow the character-class
one, in source order. -/
def substStages (u : List Char) : List Char :=
  subst ['?'] [' ', bslash, '?', ' ']
    (subst [')'] [' ', bslash, ')', ' ']
      (subst ['('] [' ', bslash, '(', ' ']
        (subst ['!'] [' ', '!', ' ']
          (subst [','] [' ', ',', ' ']
            (subst [apos, 'l', 'l'] [' ', apos, 'l', 'l']
              (subst [apos, 'd'] [' ', apos, 'd']
                (subst [apos, 'r', 'e'] [' ', apos, 'r', 'e']
                  (subst ['n', apos, 't'] [' ', 'n', apos, 't']
                    (subst [apos, 'v', 'e'] [' ', apos, 'v', 'e']
                      (subst [apos, 's'] [' ', apos, 's'] u))))))))))

/-- clean_str before whitespace collapsing and stripping. -/
def preClean (s : List Char) : List Char := substStages (s.map toWhitelist)

theorem clean_str_eq_preClean (s : List Char) :
    clean_str s = pyStrip (collapseA false (preClean s)) := rfl

theorem onlySp_map_toWhitelist (s : List Char) : onlySp (s.map toWhitelist) := by
  intro c hc hsp
  rcases List.mem_map.1 hc with ⟨a, _, ha⟩
  simp only [toWhitelist] at ha
  by_cases hw : whitelisted a
  · rw [if_pos hw] at ha
    rw [← ha] at hsp
    rw [whitelisted_not_space hw] at hsp
    exact absurd hsp Bool.false_ne_true
  · rw [if_neg hw] at ha
    exact ha.symm

theorem onlySp_subst {pat rep : List Char}
    (hrep : ∀ c ∈ rep, pyIsSpace c = true → c = ' ')
    {s : List Char} (hs : onlySp s) : onlySp (subst pat rep s) := by
  intro c hc hsp
  rcases subst_mem hc with h | h
  · exact hs c h hsp
  · exact hrep c h hsp

theorem onlySp_preClean (s : List Char) : onlySp (preClean s) := by
  refine onlySp_subst (by decide) (onlySp_subst (by decide) (onlySp_subst (by decide)
    (onlySp_subst (by decide) (onlySp_subst (by decide) (onlySp_subst (by decide)
    (onlySp_subst (by decide) (onlySp_subst (by decide) (onlySp_subst (by decide)
    (onlySp_subst (by decide) (onlySp_subst (by decide)
    (onlySp_map_toWhitelist s)))))))))))

/-! ### Token structure of the cleaned output -/

theorem flat_comp {f g : List Char → List Char}
    (hf : ∀ u, splitSp (f u) = (splitSp u).flatMap (fun t => splitSp (f t)))
    (hg : ∀ u, splitSp (g u) = (splitSp u).flatMap (fun t => splitSp (g t))) :
    ∀ u, splitSp (g (f u)) = (splitSp u).flatMap (fun t => splitSp (g (f t))) := by
  intro u
  rw [hg (f u), hf u, List.flatMap_assoc]
  exact congrArg _ (funext fun t => (hg (f t)).symm)

theorem substStages_flat (u : List Char) :
    splitSp (substStages u) = (splitSp u).flatMap (fun t => splitSp (substStages t)) := by
  have c1 := @splitSp_subst_flat [apos, 's'] [' ', apos, 's'] (by decide) (by decide)
  have c2 := @splitSp_subst_flat [apos, 'v', 'e'] [' ', apos, 'v', 'e'] (by decide) (by decide)
  have c3 := @splitSp_subst_flat ['n', apos, 't'] [' ', 'n', apos, 't'] (by decide) (by decide)
  have c4 := @splitSp_subst_flat [apos, 'r', 'e'] [' ', apos, 'r', 'e'] (by decide) (by decide)
  have c5 := @splitSp_subst_flat [apos, 'd'] [' ', apos, 'd'] (by decide) (by decide)
  have c6 := @splitSp_subst_flat [apos, 'l', 'l'] [' ', apos, 'l', 'l'] (by decide) (by decide)
  have c7 := @splitSp_subst_flat [','] [' ', ',', ' '] (by decide) (by decide)
  have c8 := @splitSp_subst_flat ['!'] [' ', '!', ' '] (by decide) (by decide)
  have c9 := @splitSp_subst_flat ['('] [' ', bslash, '(', ' '] (by decide) (by decide)
  have c10 := @splitSp_subst_flat [')'] [' ', bslash, ')', ' '] (by decide) (by decide)
  have c11 := @splitSp_subst_flat ['?'] [' ', bslash, '?', ' '] (by decide) (by decide)
  exact flat_comp (flat_comp (flat_comp (flat_comp (flat_comp (flat_comp (flat_comp
    (flat_comp (flat_comp (flat_comp c1 c2) c3) c4) c5) c6) c7) c8) c9) c10) c11 u

theorem splitSp_map_joinSp {f : Char → Char} (hf : f ' ' = ' ') :
    ∀ T : List (List Char), splitSp ((joinSp T).map f) =
      T.flatMap (fun t => splitSp (t.map f)) := by
  intro T
  induction T with
  | nil => rfl
  | cons t ts ih =>
    cases ts with
    | nil => simp [joinSp, List.flatMap_cons]
    | cons u us =>
      rw [show joinSp (t :: u :: us) = t ++ ' ' :: joinSp (u :: us) from rfl]
      rw [List.map_append, List.map_cons, hf, splitSp_append_sp, ih]
      conv_rhs => rw [List.flatMap_cons]

/-- A token whose only possible occurrence of the contraction pattern is at its
head is left in place (up to a padding space) by that contraction rewrite. -/
theorem subst_word_fix {p : List Char} (hp2 : 2 ≤ p.length)
    {w : List Char} (hw : w ≠ []) (hfree : ∀ c ∈ w, c ≠ ' ') (hT : TOnly p w) :
    splitSp (subst p (' ' :: p) w) = [w] := by
  have hne : p ≠ [] := by intro h; rw [h] at hp2; simp at hp2
  by_cases hm : p.isPrefixOf w = true
  · have hocc : occursB p (w.drop p.length) = false := by
      have h2 : (w.drop 1).drop (p.length - 1) = w.drop p.length := by
        rw [List.drop_drop]
        congr 1
        omega
      rw [← h2]
      exact occursB_drop _ hT
    rw [subst_match (' ' :: p) hne hm, subst_of_no_occ _ hocc]
    rw [List.cons_append, splitSp_sp_cons]
    rw [append_drop_of_isPrefixOf hm]
    exact splitSp_sp_free hfree hw
  · have hocc : occursB p w = false := by
      cases w with
      | nil => exact absurd rfl hw
      | cons a as =>
        rw [occursB_cons, Bool.or_eq_false_iff]
        refine ⟨?_, hT⟩
        cases hpb : p.isPrefixOf (a :: as)
        · rfl
        · exact absurd hpb hm
    rw [subst_of_no_occ _ hocc]
    exact splitSp_sp_free hfree hw

/-- A token avoiding the padded character is left in place by that padding
rewrite. -/
theorem pad_fix_of_not_mem {m : Char} (rep : List Char) {t : List Char} (hm : m ∉ t)
    (hfree : ∀ c ∈ t, c ≠ ' ') (hne : t ≠ []) :
    splitSp (subst [m] rep t) = [t] := by
  rw [subst_of_no_occ rep (occursB_single_not_mem hm)]
  exact splitSp_sp_free hfree hne

/-- Characters allowed inside a plain word token of the cleaned output. -/
def wordChar (c : Char) : Bool :=
  whitelisted c && !(c == ',') && !(c == '!') && !(c == '(') && !(c == ')') && !(c == '?')

/-- The six contraction patterns of clean_str, in source order. -/
def contrPats : List (List Char) :=
  [[apos, 's'], [apos, 'v', 'e'], ['n', apos, 't'], [apos, 'r', 'e'], [apos, 'd'],
   [apos, 'l', 'l']]

theorem wordChar_iff {c : Char} : wordChar c = true ↔
    whitelisted c = true ∧ c ≠ ',' ∧ c ≠ '!' ∧ c ≠ '(' ∧ c ≠ ')' ∧ c ≠ '?' := by
  simp only [wordChar, Bool.and_eq_true, Bool.not_eq_true', beq_eq_false_iff_ne]
  tauto

/-- Normal form of one output token of clean_str: either one of the five padded
punctuation cores or a word whose contraction suffixes occur only at its head. -/
def goodTok (t : List Char) : Prop :=
  t = [','] ∨ t = ['!'] ∨ t = [bslash, '('] ∨ t = [bslash, ')'] ∨ t = [bslash, '?'] ∨
  (t ≠ [] ∧ (∀ c ∈ t, wordChar c = true) ∧ ∀ p ∈ contrPats, TOnly p t)

/-- Invariant on tokens during the contraction stages. -/
def wtok (Q : Char → Prop) (ps : List (List Char)) (t : List Char) : Prop :=
  t ≠ [] ∧ (∀ c ∈ t, Q c) ∧ ∀ p ∈ ps, TOnly p t

/-- Invariant on tokens during the padding stages. -/
def ptok (Q : Char → Prop) (ps : List (List Char)) (cores : List (List Char))
    (excl : List Char) (t : List Char) : Prop :=
  t ∈ cores ∨
    (t ≠ [] ∧ (∀ c ∈ t, Q c) ∧ (∀ p ∈ ps, TOnly p t) ∧ ∀ m ∈ excl, m ∉ t)

theorem contr_stage {pat : List Char} (hsp : ' ' ∉ pat) (hnso : NSO pat)
    (hlen : 2 ≤ pat.length) {Q : Char → Prop} (hQ : ∀ c, Q c → c ≠ ' ')
    {ps : List (List Char)} (hps : ∀ p ∈ ps, p ≠ [])
    {u : List Char} (hu : ∀ t ∈ splitSp u, wtok Q ps t) :
    ∀ t ∈ splitSp (subst pat (' ' :: pat) u), wtok Q (pat :: ps) t := by
  have hne : pat ≠ [] := by intro h; rw [h] at hlen; simp at hlen
  intro t2 ht2
  rw [splitSp_subst_flat (' ' :: pat) hsp hne u] at ht2
  rcases List.mem_flatMap.1 ht2 with ⟨t, ht, h2m⟩
  obtain ⟨htne, hQt, hTs⟩ := hu t ht
  have hfree : ∀ c ∈ t, c ≠ ' ' := fun c hc => hQ c (hQt c hc)
  obtain ⟨⟨pre, post, hdec⟩, hTnew⟩ :=
    (contr_tokens hsp hnso hlen t.length t le_rfl hfree).1 t2 h2m
  refine ⟨(splitSp_tokens _ t2 h2m).1, ?_, ?_⟩
  · intro c hc
    refine hQt c ?_
    rw [hdec]
    exact List.mem_append_left post (List.mem_append_right pre hc)
  · intro p hp
    rcases List.mem_cons.1 hp with h | h
    · exact h ▸ hTnew
    · exact TOnly_of_infix (hps p h) (hTs p h) hdec

theorem pad_stage {m : Char} (hmsp : m ≠ ' ') {core : List Char} (hcore : core ≠ [])
    (hcoresp : ∀ c ∈ core, c ≠ ' ') {Q : Char → Prop} (hQ : ∀ c, Q c → c ≠ ' ')
    {ps : List (List Char)} (hps : ∀ p ∈ ps, p ≠ [])
    {cores : List (List Char)} {excl : List Char}
    (hcores : ∀ t0 ∈ cores, splitSp (subst [m] (' ' :: core ++ [' ']) t0) = [t0])
    {u : List Char} (hu : ∀ t ∈ splitSp u, ptok Q ps cores excl t) :
    ∀ t ∈ splitSp (subst [m] (' ' :: core ++ [' ']) u),
      ptok Q ps (core :: cores) (m :: excl) t := by
  intro t2 ht2
  rw [splitSp_subst_flat (' ' :: core ++ [' '])
    (by intro hx; rcases List.mem_singleton.1 hx with h; exact hmsp h.symm)
    (by simp) u] at ht2
  rcases List.mem_flatMap.1 ht2 with ⟨t, ht, h2m⟩
  rcases hu t ht with hc | ⟨htne, hQt, hTs, hex⟩
  · rw [hcores t hc] at h2m
    rcases List.mem_singleton.1 h2m with rfl
    exact Or.inl (List.mem_cons_of_mem _ hc)
  · have hfree : ∀ c ∈ t, c ≠ ' ' := fun c hc => hQ c (hQt c hc)
    rcases (pad_tokens hmsp hcore hcoresp t.length t le_rfl hfree).1 t2 h2m with
      h | ⟨hm2, pre, post, hdec⟩
    · exact Or.inl (by rw [h]; exact List.mem_cons_self core cores)
    · refine Or.inr ⟨(splitSp_tokens _ t2 h2m).1, ?_, ?_, ?_⟩
      · intro c hc
        refine hQt c ?_
        rw [hdec]
        exact List.mem_append_left post (List.mem_append_right pre hc)
      · intro p hp
        exact TOnly_of_infix (hps p hp) (hTs p hp) hdec
      · intro x hx
        rcases List.mem_cons.1 hx with h | h
        · subst h
          exact hm2
        · intro hmem
          refine hex x h ?_
          rw [hdec]
          exact List.mem_append_left post (List.mem_append_right pre hmem)

/-- Every token of the rewritten (pre-collapse) text is in normal form. -/
theorem preClean_tokens_good (s : List Char) : ∀ t ∈ splitSp (preClean s), goodTok t := by
  have hQ : ∀ c : Char, whitelisted c = true → c ≠ ' ' := fun c h => whitelisted_ne_sp h
  have h1 : ∀ t ∈ splitSp (s.map toWhitelist),
      wtok (fun c => whitelisted c = true) [] t := by
    intro t ht
    refine ⟨(splitSp_tokens _ t ht).1, ?_, by simp⟩
    intro c hc
    have hmem : c ∈ s.map toWhitelist := splitSp_chars _ t ht c hc
    have hcn : c ≠ ' ' := (splitSp_tokens _ t ht).2 c hc
    rcases List.mem_map.1 hmem with ⟨a, _, ha⟩
    simp only [toWhitelist] at ha
    by_cases hw : whitelisted a
    · rw [if_pos hw] at ha
      exact ha ▸ hw
    · rw [if_neg hw] at ha
      exact absurd ha.symm hcn
  have h2 := @contr_stage [apos, 's'] (by decide) (by unfold NSO; decide) (by decide)
    (fun c => whitelisted c = true) hQ [] (by simp) _ h1
  have h3 := @contr_stage [apos, 'v', 'e'] (by decide) (by unfold NSO; decide) (by decide)
    (fun c => whitelisted c = true) hQ [[apos, 's']] (by decide) _ h2
  have h4 := @contr_stage ['n', apos, 't'] (by decide) (by unfold NSO; decide) (by decide)
    (fun c => whitelisted c = true) hQ [[apos, 'v', 'e'], [apos, 's']] (by decide) _ h3
  have h5 := @contr_stage [apos, 'r', 'e'] (by decide) (by unfold NSO; decide) (by decide)
    (fun c => whitelisted c = true) hQ [['n', apos, 't'], [apos, 'v', 'e'], [apos, 's']]
    (by decide) _ h4
  have h6 := @contr_stage [apos, 'd'] (by decide) (by unfold NSO; decide) (by decide)
    (fun c => whitelisted c = true) hQ
    [[apos, 'r', 'e'], ['n', apos, 't'], [apos, 'v', 'e'], [apos, 's']] (by decide) _ h5
  have h7 := @contr_stage [apos, 'l', 'l'] (by decide) (by unfold NSO; decide) (by decide)
    (fun c => whitelisted c = true) hQ
    [[apos, 'd'], [apos, 'r', 'e'], ['n', apos, 't'], [apos, 'v', 'e'], [apos, 's']]
    (by decide) _ h6
  have h8 := @pad_stage ',' (by decide) [','] (by decide) (by decide)
    (fun c => whitelisted c = true) hQ
    [[apos, 'l', 'l'], [apos, 'd'], [apos, 'r', 'e'], ['n', apos, 't'], [apos, 'v', 'e'],
     [apos, 's']] (by decide) [] [] (by simp) _
    (fun t ht => Or.inr ⟨(h7 t ht).1, (h7 t ht).2.1, (h7 t ht).2.2, by simp⟩)
  have h9 := @pad_stage '!' (by decide) ['!'] (by decide) (by decide)
    (fun c => whitelisted c = true) hQ
    [[apos, 'l', 'l'], [apos, 'd'], [apos, 'r', 'e'], ['n', apos, 't'], [apos, 'v', 'e'],
     [apos, 's']] (by decide) [[',']] [','] (by decide) _ h8
  have h10 := @pad_stage '(' (by decide) [bslash, '('] (by decide) (by decide)
    (fun c => whitelisted c = true) hQ
    [[apos, 'l', 'l'], [apos, 'd'], [apos, 'r', 'e'], ['n', apos, 't'], [apos, 'v', 'e'],
     [apos, 's']] (by decide) [['!'], [',']] ['!', ','] (by decide) _ h9
  have h11 := @pad_stage ')' (by decide) [bslash, ')'] (by decide) (by decide)
    (fun c => whitelisted c = true) hQ
    [[apos, 'l', 'l'], [apos, 'd'], [apos, 'r', 'e'], ['n', apos, 't'], [apos, 'v', 'e'],
     [apos, 's']] (by decide) [[bslash, '('], ['!'], [',']] ['(', '!', ','] (by decide) _ h10
  have h12 := @pad_stage '?' (by decide) [bslash, '?'] (by decide) (by decide)
    (fun c => whitelisted c = true) hQ
    [[apos, 'l', 'l'], [apos, 'd'], [apos, 'r', 'e'], ['n', apos, 't'], [apos, 'v', 'e'],
     [apos, 's']] (by decide) [[bslash, ')'], [bslash, '('], ['!'], [',']]
    [')', '(', '!', ','] (by decide) _ h11
  intro t ht
  rcases h12 t ht with hc | ⟨htne, hQt, hTs, hex⟩
  · simp only [List.mem_cons, List.not_mem_nil, or_false] at hc
    rcases hc with rfl | rfl | rfl | rfl | rfl
    · exact Or.inr (Or.inr (Or.inr (Or.inr (Or.inl rfl))))
    · exact Or.inr (Or.inr (Or.inr (Or.inl rfl)))
    · exact Or.inr (Or.inr (Or.inl rfl))
    · exact Or.inr (Or.inl rfl)
    · exact Or.inl rfl
  · refine Or.inr (Or.inr (Or.inr (Or.inr (Or.inr ⟨htne, ?_, ?_⟩))))
    · intro c hc
      rw [wordChar_iff]
      refine ⟨hQt c hc, ?_, ?_, ?_, ?_, ?_⟩
      · intro he; exact hex ',' (by decide) (he ▸ hc)
      · intro he; exact hex '!' (by decide) (he ▸ hc)
      · intro he; exact hex '(' (by decide) (he ▸ hc)
      · intro he; exact hex ')' (by decide) (he ▸ hc)
      · intro he; exact hex '?' (by decide) (he ▸ hc)
    · intro p hp
      simp only [contrPats, List.mem_cons, List.not_mem_nil, or_false] at hp
      rcases hp with rfl | rfl | rfl | rfl | rfl | rfl
      · exact hTs _ (by decide)
      · exact hTs _ (by decide)
      · exact hTs _ (by decide)
      · exact hTs _ (by decide)
      · exact hTs _ (by decide)
      · exact hTs _ (by decide)

/-! ### The rewrites fix their own output -/

theorem flat_single {pat rep : List Char} (hsp : ' ' ∉ pat) (hne : pat ≠ [])
    {u w : List Char} {v : List (List Char)} (hu : splitSp u = [w])
    (hw : splitSp (subst pat rep w) = v) :
    splitSp (subst pat rep u) = v := by
  rw [splitSp_subst_flat rep hsp hne u, hu]
  simp only [List.flatMap_cons, List.flatMap_nil, List.append_nil]
  exact hw

theorem stages_fix_word {w : List Char} (hgw : w ≠ [] ∧ (∀ c ∈ w, wordChar c = true) ∧
    ∀ p ∈ contrPats, TOnly p w) : splitSp (substStages w) = [w] := by
  obtain ⟨hne, hchar, hT⟩ := hgw
  have hfree : ∀ c ∈ w, c ≠ ' ' := fun c hc =>
    whitelisted_ne_sp (wordChar_iff.1 (hchar c hc)).1
  have hnm : ∀ m ∈ ([',', '!', '(', ')', '?'] : List Char), m ∉ w := by
    intro m hm hmem
    have h := wordChar_iff.1 (hchar m hmem)
    simp only [List.mem_cons, List.not_mem_nil, or_false] at hm
    rcases hm with rfl | rfl | rfl | rfl | rfl
    · exact h.2.1 rfl
    · exact h.2.2.1 rfl
    · exact h.2.2.2.1 rfl
    · exact h.2.2.2.2.1 rfl
    · exact h.2.2.2.2.2 rfl
  have f2 : splitSp (subst [apos, 's'] [' ', apos, 's'] w) = [w] :=
    subst_word_fix (by decide) hne hfree (hT [apos, 's'] (by decide))
  have f3 := @flat_single [apos, 'v', 'e'] [' ', apos, 'v', 'e'] (by decide) (by decide)
    _ _ _ f2 (subst_word_fix (by decide) hne hfree (hT [apos, 'v', 'e'] (by decide)))
  have f4 := @flat_single ['n', apos, 't'] [' ', 'n', apos, 't'] (by decide) (by decide)
    _ _ _ f3 (subst_word_fix (by decide) hne hfree (hT ['n', apos, 't'] (by decide)))
  have f5 := @flat_single [apos, 'r', 'e'] [' ', apos, 'r', 'e'] (by decide) (by decide)
    _ _ _ f4 (subst_word_fix (by decide) hne hfree (hT [apos, 'r', 'e'] (by decide)))
  have f6 := @flat_single [apos, 'd'] [' ', apos, 'd'] (by decide) (by decide)
    _ _ _ f5 (subst_word_fix (by decide) hne hfree (hT [apos, 'd'] (by decide)))
  have f7 := @flat_single [apos, 'l', 'l'] [' ', apos, 'l', 'l'] (by decide) (by decide)
    _ _ _ f6 (subst_word_fix (by decide) hne hfree (hT [apos, 'l', 'l'] (by decide)))
  have f8 := @flat_single [','] [' ', ',', ' '] (by decide) (by decide)
    _ _ _ f7 (pad_fix_of_not_mem [' ', ',', ' '] (hnm ',' (by decide)) hfree hne)
  have f9 := @flat_single ['!'] [' ', '!', ' '] (by decide) (by decide)
    _ _ _ f8 (pad_fix_of_not_mem [' ', '!', ' '] (hnm '!' (by decide)) hfree hne)
  have f10 := @flat_single ['('] [' ', bslash, '(', ' '] (by decide) (by decide)
    _ _ _ f9 (pad_fix_of_not_mem [' ', bslash, '(', ' '] (hnm '(' (by decide)) hfree hne)
  have f11 := @flat_single [')'] [' ', bslash, ')', ' '] (by decide) (by decide)
    _ _ _ f10 (pad_fix_of_not_mem [' ', bslash, ')', ' '] (hnm ')' (by decide)) hfree hne)
  have f12 := @flat_single ['?'] [' ', bslash, '?', ' '] (by decide) (by decide)
    _ _ _ f11 (pad_fix_of_not_mem [' ', bslash, '?', ' '] (hnm '?' (by decide)) hfree hne)
  exact f12

theorem token_roundtrip {t : List Char} (hg : goodTok t) :
    (splitSp (t.map toWhitelist)).flatMap (fun x => splitSp (substStages x)) = [t] := by
  rcases hg with rfl | rfl | rfl | rfl | rfl | hw
  · decide
  · decide
  · decide
  · decide
  · decide
  · have hM : t.map toWhitelist = t := by
      have hid : ∀ c ∈ t, toWhitelist c = id c := by
        intro c hc
        simp only [toWhitelist, id]
        rw [if_pos (wordChar_iff.1 (hw.2.1 c hc)).1]
      rw [List.map_congr_left hid, List.map_id]
    have hfree : ∀ c ∈ t, c ≠ ' ' := fun c hc =>
      whitelisted_ne_sp (wordChar_iff.1 (hw.2.1 c hc)).1
    rw [hM, splitSp_sp_free hfree hw.1]
    simp only [List.flatMap_cons, List.flatMap_nil, List.append_nil]
    exact stages_fix_word hw

theorem flatMap_id_of_singleton {α : Type} :
    ∀ (l : List α) (f : α → List α), (∀ t ∈ l, f t = [t]) → l.flatMap f = l := by
  intro l f
  induction l with
  | nil => intro _; rfl
  | cons a l ih =>
    intro h
    rw [List.flatMap_cons, h a (List.mem_cons_self a l),
      ih (fun t ht => h t (List.mem_cons_of_mem a ht))]
    rfl

/-- The full rewrite pipeline re-splits a space-join of normal-form tokens into
exactly those tokens. -/
theorem preClean_joinSp {T : List (List Char)} (hT : ∀ t ∈ T, goodTok t) :
    splitSp (preClean (joinSp T)) = T := by
  show splitSp (substStages ((joinSp T).map toWhitelist)) = T
  rw [substStages_flat, splitSp_map_joinSp (show toWhitelist ' ' = ' ' from by decide) T,
    List.flatMap_assoc]
  exact flatMap_id_of_singleton T _ (fun t ht => token_roundtrip (hT t ht))

theorem clean_str_fixes_good_join {T : List (List Char)} (hT : ∀ t ∈ T, goodTok t) :
    clean_str (joinSp T) = joinSp T := by
  rw [clean_str_eq_preClean, squash_eq (onlySp_preClean _), preClean_joinSp hT]

theorem joinSp_chars : ∀ (T : List (List Char)) {c : Char}, c ∈ joinSp T →
    c = ' ' ∨ ∃ t ∈ T, c ∈ t := by
  intro T
  induction T with
  | nil => intro c hc; simp [joinSp] at hc
  | cons t ts ih =>
    intro c hc
    cases ts with
    | nil => exact Or.inr ⟨t, List.mem_cons_self t [], hc⟩
    | cons u us =>
      rw [show joinSp (t :: u :: us) = t ++ ' ' :: joinSp (u :: us) from rfl] at hc
      rcases List.mem_append.1 hc with h | h
      · exact Or.inr ⟨t, List.mem_cons_self _ _, h⟩
      · rcases List.mem_cons.1 h with h | h
        · exact Or.inl h
        · rcases ih h with h2 | ⟨t2, ht2, hc2⟩
          · exact Or.inl h2
          · exact Or.inr ⟨t2, List.mem_cons_of_mem _ ht2, hc2⟩

theorem goodTok_chars {t : List Char} (h : goodTok t) {c : Char} (hc : c ∈ t) :
    whitelisted c = true ∨ c = bslash := by
  rcases h with rfl | rfl | rfl | rfl | rfl | hw
  · simp only [List.mem_singleton] at hc
    subst hc
    exact Or.inl (by decide)
  · simp only [List.mem_singleton] at hc
    subst hc
    exact Or.inl (by decide)
  · rcases List.mem_cons.1 hc with h | h
    · exact Or.inr h
    · simp only [List.mem_singleton] at h
      subst h
      exact Or.inl (by decide)
  · rcases List.mem_cons.1 hc with h | h
    · exact Or.inr h
    · simp only [List.mem_singleton] at h
      subst h
      exact Or.inl (by decide)
  · rcases List.mem_cons.1 hc with h | h
    · exact Or.inr h
    · simp only [List.mem_singleton] at h
      subst h
      exact Or.inl (by decide)
  · exact Or.inl (wordChar_iff.1 (hw.2.1 c hc)).1

/-- C5: clean_str is idempotent: for every input string, cleaning the cleaned
string returns it unchanged. -/
theorem clean_str_idempotent (s : List Char) :
    clean_str (clean_str s) = clean_str s := by
  have h1 : clean_str s = joinSp (splitSp (preClean s)) := by
    rw [clean_str_eq_preClean, squash_eq (onlySp_preClean s)]
  rw [h1, clean_str_fixes_good_join (preClean_tokens_good s)]

/-- C1 (counterexample): on the one-character input "(", clean_str returns the
two-character string with a backslash before the parenthesis.  The backslash —
introduced because the replacement strings for ( ) ? are non-raw Python string
literals keeping the escapes as literal backslashes — is neither a whitelisted
character nor a space, and the parenthesis is not surrounded by spaces on each
side, contradicting the claim. -/
theorem clean_str_introduces_backslash :
    clean_str ['('] = [bslash, '('] ∧ whitelisted bslash = false ∧ bslash ≠ ' ' := by
  decide

/-- C1 (amended): for every input, the cleaned string is a single-space join of
tokens, each of which is the lone comma, the lone exclamation mark, one of the
backslash-escaped forms produced for ( ) ?, or a nonempty word of whitelisted
non-punctuation characters whose contraction suffixes occur only at its head;
consequently whitespace runs are collapsed, there is no leading or trailing
whitespace, and every output character is whitelisted, a space, or the
backslash preceding ( ) ?. -/
theorem clean_str_shape (s : List Char) :
    ∃ T, clean_str s = joinSp T ∧ (∀ t ∈ T, goodTok t) ∧
      ∀ c ∈ clean_str s, whitelisted c = true ∨ c = ' ' ∨ c = bslash := by
  refine ⟨splitSp (preClean s), ?_, preClean_tokens_good s, ?_⟩
  · rw [clean_str_eq_preClean, squash_eq (onlySp_preClean s)]
  · intro c hc
    rw [clean_str_eq_preClean, squash_eq (onlySp_preClean s)] at hc
    rcases joinSp_chars _ hc with h | ⟨t, ht, hct⟩
    · exact Or.inr (Or.inl h)
    · rcases goodTok_chars (preClean_tokens_good s t ht) hct with h | h
      · exact Or.inl h
      · exact Or.inr (Or.inr h)

end TextCnn
